import Mathlib

/-!
# Cryptopals set 1: a shallow embedding of `set1.go`

The Go functions of `set1.go` are embedded as Lean functions.

* A `[]byte` and a `string` are lists of bytes (`List Byte`): the elements below the
  length.  An index expression is checked against the length.  A slice expression is
  checked against the capacity, as in Go: a function that takes slice expressions of
  its argument `in` also receives `spare`, the bytes of the backing array of `in`
  between its length and its capacity (`[]` when the capacity equals the length).
  Lengths are values of the Go type `int`, below `2^63`.
* A run-time panic (an explicit `panic`, an out-of-range slice or index, an integer
  division by zero) is the result `none`.  A function in which no statement can panic
  returns its value directly.
* `float64` is the type `F64`: NaN, the two infinities, and the finite values as
  rationals.  Every arithmetic result is rounded to the nearest binary64 value, ties
  to even, overflowing to an infinity, as IEEE 754 prescribes.  The sign of a zero is
  not represented: the only divisor the program ever uses is `float64(n)` for an
  integer `n`, which is `+0` when it is zero, and comparisons do not see the sign.
* `for _, char := range text` and `utf8.RuneCountInString` decode UTF-8 the way the Go
  language does: an invalid byte yields U+FFFD and advances by one byte.
* `map[rune]float64` is an association list; the Go map operations keep at most one
  entry per key.  The iteration order of a Go map is unspecified; the only loop over a
  map, in `buildCorpus`, writes each key once from its own value, so its result does
  not depend on the order.
-/

namespace Cryptopals

/-! ## Bytes and slices -/

/-- A Go `byte`. -/
abbrev Byte := Fin 256

/-- A Go `rune`, as produced by decoding a string. -/
abbrev Rune := Nat

/-- The Go conversion `byte(k)` of an `int`. -/
def byteOfNat (k : Nat) : Byte := ⟨k % 256, Nat.mod_lt k (by decide)⟩

/-- The slice expression `s[lo:hi]` on a slice `s` whose backing array holds the bytes
`spare` between the length and the capacity of `s`: it panics unless
`0 ≤ lo ≤ hi ≤ cap(s)`, and its elements are the bytes of the backing array at the
positions `lo .. hi-1`. -/
def slice (s spare : List Byte) (lo hi : Int) : Option (List Byte) :=
  if 0 ≤ lo ∧ lo ≤ hi ∧ hi ≤ ((s.length + spare.length : Nat) : Int) then
    some (((s ++ spare).take hi.toNat).drop lo.toNat)
  else none

/-! ## float64 -/

/-- A `float64` value. -/
inductive F64 where
  | nan : F64
  | inf (neg : Bool) : F64
  | fin (q : ℚ) : F64
deriving DecidableEq

/-- Rounding of a rational to the nearest integer, ties to the even one. -/
def roundNE (x : ℚ) : ℤ :=
  if x - ⌊x⌋ < 1 / 2 then ⌊x⌋
  else if 1 / 2 < x - ⌊x⌋ then ⌊x⌋ + 1
  else if ⌊x⌋ % 2 = 0 then ⌊x⌋ else ⌊x⌋ + 1

namespace F64

/-- The binary exponent at which `q` is rounded: `⌊log₂ |q|⌋`, and `-1022` in the
subnormal range. -/
def expOf (q : ℚ) : ℤ := max (Int.log 2 |q|) (-1022)

/-- The spacing of binary64 values around `q` (53 significant bits). -/
def ulp (q : ℚ) : ℚ := (2 : ℚ) ^ (expOf q - 52)

/-- The multiple of `ulp q` nearest to `q`, ties to the even multiple. -/
def roundQ (q : ℚ) : ℚ := (roundNE (q / ulp q) : ℚ) * ulp q

/-- The binary64 result of an exact value `q`: round to nearest, ties to even,
overflow to infinity. -/
def round (q : ℚ) : F64 :=
  if (2 : ℚ) ^ (1024 : ℕ) ≤ |roundQ q| then inf (decide (q < 0)) else fin (roundQ q)

/-- The `float64` addition `x + y`. -/
def add : F64 → F64 → F64
  | nan, _ => nan
  | _, nan => nan
  | inf s, inf t => if s = t then inf s else nan
  | inf s, fin _ => inf s
  | fin _, inf t => inf t
  | fin a, fin b => round (a + b)

/-- The `float64` division `x / y` (a zero divisor is `+0`). -/
def div : F64 → F64 → F64
  | nan, _ => nan
  | _, nan => nan
  | inf _, inf _ => nan
  | inf s, fin b => inf (xor s (decide (b < 0)))
  | fin _, inf _ => fin 0
  | fin a, fin b =>
    if b = 0 then (if a = 0 then nan else inf (decide (a < 0))) else round (a / b)

/-- The `float64` comparison `x < y`; `y > x` is `lt x y`. -/
def lt : F64 → F64 → Bool
  | nan, _ => false
  | _, nan => false
  | inf s, inf t => s && !t
  | inf s, fin _ => s
  | fin _, inf t => !t
  | fin a, fin b => decide (a < b)

/-- The `float64` comparison `x <= y`. -/
def le : F64 → F64 → Bool
  | nan, _ => false
  | _, nan => false
  | inf s, inf t => s || !t
  | inf s, fin _ => s
  | fin _, inf t => !t
  | fin a, fin b => decide (a ≤ b)

/-- The conversion `float64(n)` of an `int`. -/
def ofInt (n : Int) : F64 := round n

/-- The constant `math.MaxFloat64`. -/
def maxFloat64 : F64 := fin ((2 ^ 53 - 1) * 2 ^ 971)

/-- The zero value of a `float64` variable. -/
def zero : F64 := fin 0

/-- The sum of a list of values in `float64` arithmetic, accumulated from 0 in the
order of the list. -/
def sum (vs : List F64) : F64 := vs.foldl add (fin 0)

/-- The exact value of a finite `float64`. -/
def toRat : F64 → ℚ
  | fin q => q
  | _ => 0

end F64

/-! ## UTF-8 decoding of a string -/

/-- The rune `utf8.RuneError`. -/
def runeError : Rune := 0xFFFD

/-- The entry of the table `first` of package `utf8` for a lead byte at or above
`0x80`: the size of the encoding and the accepted range of the second byte; `none`
for a byte that starts no encoding. -/
def utf8First (s0 : Byte) : Option (Nat × Nat × Nat) :=
  if s0.val < 0xC2 then none
  else if s0.val < 0xE0 then some (2, 0x80, 0xBF)
  else if s0.val = 0xE0 then some (3, 0xA0, 0xBF)
  else if s0.val = 0xED then some (3, 0x80, 0x9F)
  else if s0.val < 0xF0 then some (3, 0x80, 0xBF)
  else if s0.val = 0xF0 then some (4, 0x90, 0xBF)
  else if s0.val < 0xF4 then some (4, 0x80, 0xBF)
  else if s0.val = 0xF4 then some (4, 0x80, 0x8F)
  else none

/-- The function `utf8.DecodeRuneInString`: the first rune of `s` and its width in
bytes; an invalid or short encoding is `(RuneError, 1)`. -/
def decodeRune (s : List Byte) : Rune × Nat :=
  match s with
  | [] => (runeError, 0)
  | s0 :: rest =>
    if s0.val < 0x80 then (s0.val, 1)
    else
      match utf8First s0 with
      | none => (runeError, 1)
      | some (sz, lo, hi) =>
        if s.length < sz then (runeError, 1)
        else
          match rest with
          | [] => (runeError, 1)
          | s1 :: rest1 =>
            if s1.val < lo ∨ hi < s1.val then (runeError, 1)
            else if sz ≤ 2 then ((s0.val &&& 0x1F) <<< 6 ||| (s1.val &&& 0x3F), 2)
            else
              match rest1 with
              | [] => (runeError, 1)
              | s2 :: rest2 =>
                if s2.val < 0x80 ∨ 0xBF < s2.val then (runeError, 1)
                else if sz ≤ 3 then
                  ((s0.val &&& 0x0F) <<< 12 ||| (s1.val &&& 0x3F) <<< 6
                    ||| (s2.val &&& 0x3F), 3)
                else
                  match rest2 with
                  | [] => (runeError, 1)
                  | s3 :: _ =>
                    if s3.val < 0x80 ∨ 0xBF < s3.val then (runeError, 1)
                    else
                      ((s0.val &&& 0x07) <<< 18 ||| (s1.val &&& 0x3F) <<< 12
                        ||| (s2.val &&& 0x3F) <<< 6 ||| (s3.val &&& 0x3F), 4)

/-- The runes of `s` in order, at most `fuel` of them. -/
def runesAux : Nat → List Byte → List Rune
  | 0, _ => []
  | fuel + 1, s =>
    if s = [] then []
    else (decodeRune s).1 :: runesAux fuel (s.drop (decodeRune s).2)

/-- The runes that `for _, char := range s` visits; their number is
`utf8.RuneCountInString(s)`.  Every rune takes at least one byte, so `len(s)` steps
reach the end of `s`. -/
def runes (s : List Byte) : List Rune := runesAux s.length s

/-! ## map[rune]float64 -/

/-- A Go `map[rune]float64`. -/
abbrev Table := List (Rune × F64)

namespace Table

/-- The map read `corpus[char]`: the zero value when the key is absent. -/
def get : Table → Rune → F64
  | [], _ => F64.zero
  | (k, v) :: rest, r => if k = r then v else get rest r

/-- The map write `corpus[char] = v`. -/
def set : Table → Rune → F64 → Table
  | [], r, v => [(r, v)]
  | (k, w) :: rest, r, v => if k = r then (k, v) :: rest else (k, w) :: set rest r v

/-- Whether `r` is a key of the map. -/
def contains : Table → Rune → Bool
  | [], _ => false
  | (k, _) :: rest, r => decide (k = r) || contains rest r

/-- The keys of the map. -/
def keys (t : Table) : List Rune := t.map Prod.fst

/-- The value the specification gives a character: its entry in the table, and 0
when the character is absent from the table. -/
def valueOr0 (t : Table) (r : Rune) : F64 :=
  match t.find? (fun kv => decide (kv.1 = r)) with
  | some kv => kv.2
  | none => F64.fin 0

/-- The sum of the values of the map as exact rationals (a value that is not finite
counts as 0). -/
def valueSum (t : Table) : ℚ := (t.map (fun kv => F64.toRat kv.2)).sum

/-- The sum of the values of the map in `float64` arithmetic, accumulated from 0 in
the order of the entries. -/
def floatSum (t : Table) : F64 := F64.sum (t.map Prod.snd)

end Table

/-! ## The functions of set1.go -/

/-- The function `fixedXOR`. -/
def fixedXOR (a b : List Byte) : Option (List Byte) :=
  if a.length ≠ b.length then none
  else some (List.zipWith (fun x y => x ^^^ y) a b)

/-- The function `buildCorpus`. -/
def buildCorpus (text : List Byte) : Table :=
  let corpus : Table :=
    (runes text).foldl (fun c char => c.set char (F64.add (c.get char) (F64.fin 1))) []
  let total : Nat := (runes text).length
  corpus.foldl (fun c kv => c.set kv.1 (F64.div kv.2 (F64.ofInt total))) corpus

/-- The function `scoreEnglish`. -/
def scoreEnglish (text : List Byte) (corpus : Table) : F64 :=
  let score : F64 :=
    (runes text).foldl (fun score char => F64.add score (corpus.get char)) F64.zero
  F64.div score (F64.ofInt (runes text).length)

/-- The function `singleXOR`. -/
def singleXOR (inp : List Byte) (key : Byte) : List Byte :=
  inp.map (fun c => c ^^^ key)

/-- The variables `res`, `bestScore` and `key` of `findSingleByteXOR`. -/
structure SingleState where
  res : List Byte
  bestScore : F64
  key : Byte

/-- One iteration of the loop of `findSingleByteXOR`, for the candidate `k`. -/
def singleStep (inp : List Byte) (corpus : Table) (st : SingleState) (k : Nat) :
    SingleState :=
  let out := singleXOR inp (byteOfNat k)
  let score := scoreEnglish out corpus
  if F64.lt st.bestScore score then ⟨out, score, byteOfNat k⟩ else st

/-- The state of `findSingleByteXOR` after the candidates `0 .. n-1`. -/
def singleLoop (inp : List Byte) (corpus : Table) (n : Nat) : SingleState :=
  (List.range n).foldl (singleStep inp corpus) ⟨[], F64.zero, 0⟩

/-- The function `findSingleByteXOR`: the key, the plaintext and the score. -/
def findSingleByteXOR (inp : List Byte) (corpus : Table) : Byte × List Byte × F64 :=
  let st := singleLoop inp corpus 256
  (st.key, st.res, st.bestScore)

/-- The loop of `repeatingXOR` from the state `n`; `key[n]` panics when out of range. -/
def repeatingXORLoop (key : List Byte) : List Byte → Nat → Option (List Byte)
  | [], _ => some []
  | c :: rest, n =>
    match key.get? n with
    | none => none
    | some kn =>
      match repeatingXORLoop key rest (if n + 1 ≥ key.length then 0 else n + 1) with
      | none => none
      | some out => some ((c ^^^ kn) :: out)

/-- The function `repeatingXOR`. -/
def repeatingXOR (inp key : List Byte) : Option (List Byte) :=
  repeatingXORLoop key inp 0

/-- The function `bits.OnesCount8`: the number of one bits of a byte. -/
def onesCount8 (x : Byte) : Nat :=
  ((List.range 8).filter (fun j => x.val.testBit j)).length

/-- The loop of `hammingDistance` over the positions of two slices of equal length. -/
def bitDistance (a b : List Byte) : Nat :=
  (a.zip b).foldl (fun res p => res + onesCount8 (p.1 ^^^ p.2)) 0

/-- The function `hammingDistance`. -/
def hammingDistance (a b : List Byte) : Option Nat :=
  if a.length ≠ b.length then none else some (bitDistance a b)

/-- The number of differing bits of the specification: the number of pairs `(i, j)`
with `i < len(a)` and `j < 8` such that bit `j` of `a[i]` differs from bit `j` of
`b[i]`. -/
def differingBits (a b : List Byte) : Nat :=
  ((Finset.range a.length ×ˢ Finset.range 8).filter
    (fun p => (a.getD p.1 0).val.testBit p.2 ≠ (b.getD p.1 0).val.testBit p.2)).card

/-- The variables `res` and `bestScore` of `findRepeatingXORKeySize`. -/
structure KeySizeState where
  res : Nat
  bestScore : F64

/-- The normalized distance that `findRepeatingXORKeySize` computes for `keyLen`:
`float64(hammingDistance(in[:keyLen*4], in[keyLen*4:keyLen*4*2])) / float64(keyLen)`.
The bytes `spare` lie between the length and the capacity of `in`. -/
def keySizeScore (inp spare : List Byte) (keyLen : Nat) : Option F64 :=
  match slice inp spare 0 (keyLen * 4 : Nat) with
  | none => none
  | some a =>
    match slice inp spare (keyLen * 4 : Nat) (keyLen * 4 * 2 : Nat) with
    | none => none
    | some b =>
      match hammingDistance a b with
      | none => none
      | some d => some (F64.div (F64.ofInt d) (F64.ofInt keyLen))

/-- The normalized distance of the specification for the candidate length `k`: the
number of differing bits between the bytes `[0, 4k)` and the bytes `[4k, 8k)` of the
ciphertext, divided by `k`, as an exact rational. -/
def normDistance (inp : List Byte) (k : Nat) : ℚ :=
  (bitDistance (inp.take (4 * k)) ((inp.drop (4 * k)).take (4 * k)) : ℚ) / (k : ℚ)

/-- One iteration of the loop of `findRepeatingXORKeySize`. -/
def keySizeStep (inp spare : List Byte) (st : KeySizeState) (keyLen : Nat) :
    Option KeySizeState :=
  match keySizeScore inp spare keyLen with
  | none => none
  | some score => if F64.lt score st.bestScore then some ⟨keyLen, score⟩ else some st

/-- The function `findRepeatingXORKeySize`: the candidates run from 2 to 40.  The
bytes `spare` lie between the length and the capacity of `in`. -/
def findRepeatingXORKeySize (inp spare : List Byte) : Option Nat :=
  match (List.range' 2 39).foldlM (keySizeStep inp spare) ⟨0, F64.maxFloat64⟩ with
  | none => none
  | some st => some st.res

/-- The inner loop of `findRepeatingXORKey` for one column: the rows `0 .. nRow-1`
are written into `block`; `block[row] = ...` panics when `row` is out of range. -/
def fillBlock (inp : List Byte) (keySize col : Nat) (block : List Byte) (nRow : Nat) :
    Option (List Byte) :=
  (List.range nRow).foldlM
    (fun (blk : List Byte) (row : Nat) =>
      if row * keySize + col ≥ inp.length then some blk
      else
        match inp.get? (row * keySize + col) with
        | none => none
        | some v => if row < blk.length then some (blk.set row v) else none)
    block

/-- The body of the outer loop of `findRepeatingXORKey`: the block of column `col`.
`make([]byte, nRow-1)` panics when `nRow` is zero. -/
def columnBlock (inp : List Byte) (keySize nRow col : Nat) : Option (List Byte) :=
  if ((nRow : Int) - 1) * keySize + col ≥ (inp.length : Int) then
    if nRow = 0 then none
    else fillBlock inp keySize col (List.replicate (nRow - 1) 0) nRow
  else fillBlock inp keySize col (List.replicate nRow 0) nRow

/-- Column `c` of the specification for the key length `K`: the bytes of the
ciphertext at the positions `c, c+K, c+2K, ...` below its length, in order. -/
def column (inp : List Byte) (K c : Nat) : List Byte :=
  (List.range ((inp.length - c + K - 1) / K)).map (fun r => inp.getD (c + r * K) 0)

/-- The function `findRepeatingXORKey`.  The bytes `spare` lie between the length and
the capacity of `in`. -/
def findRepeatingXORKey (inp spare : List Byte) (corpus : Table) : Option (List Byte) :=
  match findRepeatingXORKeySize inp spare with
  | none => none
  | some keySize =>
    if keySize = 0 then none
    else
      let nRow := (inp.length + keySize - 1) / keySize
      (List.range keySize).foldlM
        (fun (key : List Byte) (col : Nat) =>
          match columnBlock inp keySize nRow col with
          | none => none
          | some block =>
            if col < key.length then some (key.set col (findSingleByteXOR block corpus).1)
            else none)
        (List.replicate keySize 0)

/-- Block `i` of the specification for the block size `b`: the bytes
`ciphertext[i*b : (i+1)*b]`. -/
def block (inp : List Byte) (b i : Nat) : List Byte :=
  (inp.take ((i + 1) * b)).drop (i * b)

/-- The loop of `detectECB` from the index `i` with the set `seen`; `fuel` bounds the
number of iterations. -/
def detectECBLoop (inp spare : List Byte) (blockSize : Int) :
    Nat → Int → List (List Byte) → Option Bool
  | 0, _, _ => none
  | fuel + 1, i, seen =>
    if i < (inp.length : Int) then
      match slice inp spare i (i + blockSize) with
      | none => none
      | some val =>
        if val ∈ seen then some true
        else detectECBLoop inp spare blockSize fuel (i + blockSize) (val :: seen)
    else some false

/-- The function `detectECB`.  `len(in) % blockSize` panics when `blockSize` is zero.
With a positive `blockSize` the loop ends within `len(in) + 1` iterations; with a
negative one its first iteration panics.  The bytes `spare` lie between the length
and the capacity of `in`. -/
def detectECB (inp spare : List Byte) (blockSize : Int) : Option Bool :=
  if blockSize = 0 then none
  else if Int.tmod (inp.length : Int) blockSize ≠ 0 then none
  else detectECBLoop inp spare blockSize (inp.length + 1) 0 []

/-! ## Lemmas on float64 rounding and comparison -/


theorem roundNE_intCast (z : ℤ) : roundNE (z : ℚ) = z := by
  unfold roundNE
  simp

theorem abs_roundNE_sub_le (x : ℚ) : |(roundNE x : ℚ) - x| ≤ 1 / 2 := by
  have h1 : (⌊x⌋ : ℚ) ≤ x := Int.floor_le x
  have h2 : x < ⌊x⌋ + 1 := Int.lt_floor_add_one x
  unfold roundNE
  rw [abs_le]
  split_ifs with ha hb hc
  · constructor <;> linarith
  · push_cast; constructor <;> linarith
  · constructor <;> linarith
  · push_cast; constructor <;> linarith

namespace F64

theorem ulp_pos (q : ℚ) : 0 < ulp q := by
  unfold ulp; positivity

theorem round_def (q : ℚ) :
    round q = if (2 : ℚ) ^ (1024 : ℕ) ≤ |roundQ q| then inf (decide (q < 0)) else fin (roundQ q) :=
  rfl

theorem abs_roundQ_sub_le (q : ℚ) : |roundQ q - q| ≤ ulp q / 2 := by
  have hu := ulp_pos q
  have h := abs_roundNE_sub_le (q / ulp q)
  have e : roundQ q - q = ((roundNE (q / ulp q) : ℚ) - q / ulp q) * ulp q := by
    unfold roundQ; field_simp
  rw [e, abs_mul, abs_of_pos hu]
  calc |(roundNE (q / ulp q) : ℚ) - q / ulp q| * ulp q ≤ 1 / 2 * ulp q :=
        mul_le_mul_of_nonneg_right h hu.le
    _ = ulp q / 2 := by ring

theorem roundQ_zero : roundQ 0 = 0 := by
  unfold roundQ
  rw [zero_div]
  have : roundNE 0 = 0 := by simpa using roundNE_intCast 0
  rw [this]; simp

theorem expOf_le {q : ℚ} {k : ℤ} (h0 : q ≠ 0) (hk : -1022 ≤ k) (hq : |q| < (2 : ℚ) ^ (k + 1)) :
    expOf q ≤ k := by
  unfold expOf
  apply max_le _ hk
  have hpos : 0 < |q| := abs_pos.mpr h0
  have := (Int.lt_zpow_iff_log_lt (b := 2) (by norm_num) hpos).mp (by exact_mod_cast hq)
  omega

theorem ulp_le {q : ℚ} {k : ℤ} (h0 : q ≠ 0) (hk : -1022 ≤ k) (hq : |q| < (2 : ℚ) ^ (k + 1)) :
    ulp q ≤ (2 : ℚ) ^ (k - 52) := by
  unfold ulp
  apply zpow_le_zpow_right₀ (by norm_num)
  have := expOf_le h0 hk hq
  omega

/-- The rounding error is at most half a unit in the last place. -/
theorem abs_roundQ_sub_le_zpow {q : ℚ} {k : ℤ} (hk : -1022 ≤ k)
    (hq : |q| < (2 : ℚ) ^ (k + 1)) : |roundQ q - q| ≤ (2 : ℚ) ^ (k - 53) := by
  by_cases h0 : q = 0
  · subst h0; rw [roundQ_zero]; simp; positivity
  · have h1 := abs_roundQ_sub_le q
    have h2 := ulp_le h0 hk hq
    have h3 : (2 : ℚ) ^ (k - 52) = 2 * (2 : ℚ) ^ (k - 53) := by
      rw [show k - 52 = (k - 53) + 1 by ring, zpow_add_one₀ (by norm_num)]; ring
    linarith

/-- A value on the grid of its own exponent, below the overflow threshold, is
unchanged by rounding. -/
theorem round_of_grid {q : ℚ} (z : ℤ) (hz : q = (z : ℚ) * ulp q)
    (hlt : |q| < (2 : ℚ) ^ (1024 : ℕ)) : round q = fin q := by
  have hu := ulp_pos q
  have h1 : q / ulp q = (z : ℚ) := by
    rw [div_eq_iff hu.ne']; exact hz
  have h2 : roundQ q = q := by
    unfold roundQ; rw [h1, roundNE_intCast]; exact hz.symm
  rw [round_def, h2, if_neg (not_le.mpr hlt)]

theorem round_intCast (n : ℤ) (hn : |n| < 2 ^ 53) : round (n : ℚ) = fin n := by
  by_cases h0 : (n : ℚ) = 0
  · rw [h0, round_def, roundQ_zero]; simp
  · have hq : |(n : ℚ)| < (2 : ℚ) ^ ((52 : ℤ) + 1) := by
      have : ((|n| : ℤ) : ℚ) < ((2 ^ 53 : ℤ) : ℚ) := by exact_mod_cast hn
      rw [Int.cast_abs] at this
      calc |(n : ℚ)| < ((2 ^ 53 : ℤ) : ℚ) := this
        _ = (2 : ℚ) ^ ((52 : ℤ) + 1) := by norm_num
    have he := expOf_le h0 (by norm_num) hq
    have hu : ulp (n : ℚ) = ((2 : ℚ) ^ (52 - expOf (n : ℚ)).toNat)⁻¹ := by
      unfold ulp
      rw [← zpow_natCast, ← zpow_neg, Int.toNat_of_nonneg (by omega)]
      congr 1; ring
    apply round_of_grid (n * 2 ^ (52 - expOf (n : ℚ)).toNat)
    · rw [hu]; push_cast; field_simp
    · calc |(n : ℚ)| < (2 : ℚ) ^ ((52 : ℤ) + 1) := hq
        _ ≤ (2 : ℚ) ^ (1024 : ℕ) := by norm_num



/-! ### Comparison -/

theorem le_self {x : F64} (hx : x ≠ nan) : le x x = true := by
  rcases x with _ | s | a
  · simp at hx
  · cases s <;> simp [le]
  · simp [le]

theorem lt_self (x : F64) : lt x x = false := by
  rcases x with _ | s | a
  · simp [lt]
  · cases s <;> simp [lt]
  · simp [lt]

theorem le_of_lt_true {x y : F64} (h : lt x y = true) : le x y = true := by
  rcases x with _ | s | a <;> rcases y with _ | t | b <;> simp_all [lt, le]
  exact h.le

theorem le_of_lt_false {x y : F64} (hx : x ≠ nan) (hy : y ≠ nan) (h : lt x y = false) :
    le y x = true := by
  rcases x with _ | s | a <;> rcases y with _ | t | b <;> simp_all [lt, le]
  cases s <;> cases t <;> simp_all

theorem le_lt_trans {x y z : F64} (h1 : le x y = true) (h2 : lt y z = true) :
    lt x z = true := by
  rcases x with _ | s | a <;> rcases y with _ | t | b <;> rcases z with _ | u | c <;>
    simp_all [lt, le]
  exact h1.trans_lt h2

theorem lt_le_trans {x y z : F64} (h1 : lt x y = true) (h2 : le y z = true) :
    lt x z = true := by
  rcases x with _ | s | a <;> rcases y with _ | t | b <;> rcases z with _ | u | c <;>
    simp_all [lt, le]
  exact h1.trans_le h2

theorem le_le_trans {x y z : F64} (h1 : le x y = true) (h2 : le y z = true) :
    le x z = true := by
  rcases x with _ | s | a <;> rcases y with _ | t | b <;> rcases z with _ | u | c <;>
    simp_all [lt, le]
  · cases s <;> cases t <;> cases u <;> simp_all
  · exact h1.trans h2

theorem eq_of_le_of_le {x y : F64} (h1 : le x y = true) (h2 : le y x = true) : x = y := by
  rcases x with _ | s | a <;> rcases y with _ | t | b <;> simp_all [le]
  · cases s <;> cases t <;> simp_all
  · exact h1.antisymm h2

theorem lt_false_of_le {x y : F64} (h : le x y = true) : lt y x = false := by
  rcases x with _ | s | a <;> rcases y with _ | t | b <;> simp_all [lt, le]
  cases s <;> cases t <;> simp_all

theorem ne_nan_of_le_left {x y : F64} (h : le x y = true) : x ≠ nan := by
  rcases x with _ | s | a <;> simp_all [le]

theorem ne_nan_of_le_right {x y : F64} (h : le x y = true) : y ≠ nan := by
  rcases x with _ | s | a <;> rcases y with _ | t | b <;> simp_all [le]

theorem nonneg_cases {x : F64} (h : le zero x = true) :
    x = inf false ∨ ∃ q : ℚ, 0 ≤ q ∧ x = fin q := by
  rcases x with _ | s | a
  · simp [le, zero] at h
  · left; simpa [le, zero] using h
  · right; exact ⟨a, by simpa [le, zero] using h, rfl⟩

theorem le_zero_round {q : ℚ} (hq : 0 ≤ q) : le zero (round q) = true := by
  rw [round_def]
  split_ifs with h
  · simp [le, zero, not_lt.mpr hq]
  · have h1 : 0 ≤ q / ulp q := div_nonneg hq (ulp_pos q).le
    have h2 : (0 : ℚ) ≤ (roundNE (q / ulp q) : ℚ) := by
      have h0 : (0 : ℤ) ≤ ⌊q / ulp q⌋ := Int.floor_nonneg.mpr h1
      have : (0 : ℤ) ≤ roundNE (q / ulp q) := by
        unfold roundNE; split_ifs <;> omega
      exact_mod_cast this
    simpa [le, zero, roundQ] using mul_nonneg h2 (ulp_pos q).le

theorem le_zero_add {x y : F64} (hx : le zero x = true) (hy : le zero y = true) :
    le zero (add x y) = true := by
  rcases nonneg_cases hx with rfl | ⟨a, ha, rfl⟩ <;>
    rcases nonneg_cases hy with rfl | ⟨b, hb, rfl⟩
  · simp [add, le, zero]
  · simp [add, le, zero]
  · simp [add, le, zero]
  · exact le_zero_round (add_nonneg ha hb)

theorem le_zero_div {x : F64} {m : ℚ} (hx : le zero x = true) (hm : 0 < m) :
    le zero (div x (fin m)) = true := by
  rcases nonneg_cases hx with rfl | ⟨a, ha, rfl⟩
  · simp [div, le, zero, not_lt.mpr hm.le]
  · simp only [div, if_neg hm.ne']
    exact le_zero_round (div_nonneg ha hm.le)

/-- The conversion of a positive `int` is a positive finite value. -/
theorem ofInt_pos {n : ℤ} (h1 : 1 ≤ n) (h2 : n < 2 ^ 63) :
    ∃ m : ℚ, 0 < m ∧ ofInt n = fin m := by
  by_cases h : n < 2 ^ 53
  · refine ⟨n, by exact_mod_cast h1, ?_⟩
    exact round_intCast n (by rw [abs_of_nonneg (by omega)]; exact h)
  · have hn : (2 : ℚ) ^ 53 ≤ (n : ℚ) := by exact_mod_cast not_lt.mp h
    have hn2 : (n : ℚ) < (2 : ℚ) ^ 63 := by exact_mod_cast h2
    have habs : |(n : ℚ)| < (2 : ℚ) ^ ((62 : ℤ) + 1) := by
      rw [abs_of_nonneg (by linarith [show (0:ℚ) ≤ 2 ^ 53 by positivity])]
      calc (n : ℚ) < (2 : ℚ) ^ 63 := hn2
        _ = (2 : ℚ) ^ ((62 : ℤ) + 1) := by norm_num
    have herr := abs_roundQ_sub_le_zpow (by norm_num) habs
    have h9 : (2 : ℚ) ^ ((62 : ℤ) - 53) = 512 := by norm_num
    rw [h9, abs_le] at herr
    have hpos : 0 < roundQ (n : ℚ) := by
      have : (2 : ℚ) ^ 53 = 9007199254740992 := by norm_num
      linarith
    refine ⟨roundQ (n : ℚ), hpos, ?_⟩
    unfold ofInt
    rw [round_def, if_neg]
    rw [not_le, abs_of_pos hpos]
    calc roundQ (n : ℚ) ≤ (n : ℚ) + 512 := by linarith
      _ < (2 : ℚ) ^ 63 + 512 := by linarith
      _ < (2 : ℚ) ^ (1024 : ℕ) := by norm_num

end F64

/-! ## Lemmas on UTF-8 decoding -/

/-- Every rune of a non-empty string takes at least one byte. -/
theorem decodeRune_size_pos {s : List Byte} (hs : s ≠ []) : 1 ≤ (decodeRune s).2 := by
  unfold decodeRune
  split
  · exact absurd rfl hs
  · repeat' split
    all_goals simp

/-- Decoding does not depend on the fuel once it covers the length of the string:
`len(s)` steps reach the end of `s`. -/
theorem runesAux_of_length_le (fuel : Nat) :
    ∀ s : List Byte, s.length ≤ fuel → runesAux fuel s = runesAux s.length s := by
  induction fuel using Nat.strong_induction_on with
  | _ fuel ih =>
    intro s hs
    cases s with
    | nil => cases fuel <;> simp [runesAux]
    | cons b t =>
      cases fuel with
      | zero => simp at hs
      | succ n =>
        have hpos := decodeRune_size_pos (s := b :: t) (by simp)
        have hdrop : ((b :: t).drop (decodeRune (b :: t)).2).length ≤ t.length := by
          simp only [List.length_drop, List.length_cons]; omega
        simp only [List.length_cons] at hs
        simp only [runesAux, List.length_cons]
        rw [if_neg (by simp), if_neg (by simp)]
        congr 1
        rw [ih n (by omega) _ (by omega), ih t.length (by omega) _ hdrop]

theorem runesAux_length_le (fuel : Nat) (s : List Byte) : (runesAux fuel s).length ≤ fuel := by
  induction fuel generalizing s with
  | zero => simp [runesAux]
  | succ n ih =>
    unfold runesAux
    split_ifs
    · simp
    · simpa using ih _

theorem runes_length_le (s : List Byte) : (runes s).length ≤ s.length :=
  runesAux_length_le _ _

theorem runes_length_pos {s : List Byte} (hs : s ≠ []) : 0 < (runes s).length := by
  unfold runes
  cases s with
  | nil => exact absurd rfl hs
  | cons b t => simp [runesAux]

/-! ## Scores with a table of non-negative values -/

theorem Table.le_zero_get {t : Table} (ht : ∀ kv ∈ t, F64.le F64.zero kv.2 = true) (r : Rune) :
    F64.le F64.zero (t.get r) = true := by
  induction t with
  | nil => simp [Table.get, F64.le, F64.zero]
  | cons kv rest ih =>
    obtain ⟨k, v⟩ := kv
    unfold Table.get
    split_ifs
    · exact ht (k, v) (by simp)
    · exact ih (fun kv hkv => ht kv (by simp [hkv]))

theorem le_zero_foldl_add (t : Table) (ht : ∀ kv ∈ t, F64.le F64.zero kv.2 = true)
    (rs : List Rune) (acc : F64) (hacc : F64.le F64.zero acc = true) :
    F64.le F64.zero (rs.foldl (fun score char => F64.add score (t.get char)) acc) = true := by
  induction rs generalizing acc with
  | nil => simpa using hacc
  | cons r rest ih =>
    simp only [List.foldl_cons]
    exact ih _ (F64.le_zero_add hacc (Table.le_zero_get ht r))

/-- With a table of non-negative values, the score of a non-empty text is a
non-negative value (not NaN). -/
theorem le_zero_scoreEnglish {text : List Byte} {t : Table} (hne : text ≠ [])
    (hlen : text.length < 2 ^ 63) (ht : ∀ kv ∈ t, F64.le F64.zero kv.2 = true) :
    F64.le F64.zero (scoreEnglish text t) = true := by
  unfold scoreEnglish
  have h1 := runes_length_pos hne
  have h2 := runes_length_le text
  obtain ⟨m, hm, hof⟩ := F64.ofInt_pos (n := ((runes text).length : ℤ)) (by omega) (by omega)
  simp only [hof]
  exact F64.le_zero_div (le_zero_foldl_add t ht _ _ (by simp [F64.le, F64.zero])) hm

theorem singleXOR_length (inp : List Byte) (k : Byte) : (singleXOR inp k).length = inp.length := by
  simp [singleXOR]

theorem singleXOR_ne_nil {inp : List Byte} (h : inp ≠ []) (k : Byte) : singleXOR inp k ≠ [] := by
  simpa [singleXOR] using h


/-! ## The loop of findSingleByteXOR -/


theorem byteOfNat_val (j : Byte) : byteOfNat j.val = j := by
  apply Fin.ext
  simp [byteOfNat, Nat.mod_eq_of_lt j.isLt]

theorem byteOfNat_val_of_lt {k : Nat} (hk : k < 256) : (byteOfNat k).val = k := by
  simp [byteOfNat, Nat.mod_eq_of_lt hk]

theorem singleLoop_succ (inp : List Byte) (t : Table) (n : Nat) :
    singleLoop inp t (n + 1) = singleStep inp t (singleLoop inp t n) n := by
  simp [singleLoop, List.range_succ, List.foldl_append]

/-- The invariant of the loop of `findSingleByteXOR` when no candidate score is NaN
or negative: the best score bounds the scores seen so far, and either no candidate
has scored above zero and the variables keep their zero values, or they hold the
first candidate that attains the best score. -/
theorem singleLoop_inv (inp : List Byte) (t : Table)
    (hs : ∀ k : Nat, F64.le F64.zero (scoreEnglish (singleXOR inp (byteOfNat k)) t) = true)
    (n : Nat) (hn : n ≤ 256) :
    F64.le F64.zero (singleLoop inp t n).bestScore = true ∧
    (∀ j < n, F64.le (scoreEnglish (singleXOR inp (byteOfNat j)) t)
        (singleLoop inp t n).bestScore = true) ∧
    (((singleLoop inp t n).res = [] ∧ (singleLoop inp t n).key = 0 ∧
        (singleLoop inp t n).bestScore = F64.zero) ∨
      ((singleLoop inp t n).key.val < n ∧
        (singleLoop inp t n).res = singleXOR inp (singleLoop inp t n).key ∧
        (singleLoop inp t n).bestScore
          = scoreEnglish (singleXOR inp (singleLoop inp t n).key) t ∧
        F64.lt F64.zero (singleLoop inp t n).bestScore = true ∧
        ∀ j < (singleLoop inp t n).key.val,
          F64.lt (scoreEnglish (singleXOR inp (byteOfNat j)) t)
            (singleLoop inp t n).bestScore = true)) := by
  induction n with
  | zero =>
    refine ⟨by simp [singleLoop, F64.le, F64.zero], by simp, Or.inl ?_⟩
    simp [singleLoop]
  | succ n ih =>
    obtain ⟨hb, hall, hshape⟩ := ih (by omega)
    rw [singleLoop_succ]
    generalize singleLoop inp t n = st at hb hall hshape
    have hsn := hs n
    unfold singleStep
    by_cases hlt : F64.lt st.bestScore (scoreEnglish (singleXOR inp (byteOfNat n)) t) = true
    · rw [if_pos hlt]
      have hkv : (byteOfNat n).val = n := byteOfNat_val_of_lt (by omega)
      refine ⟨hsn, ?_, Or.inr ⟨by simp only [hkv]; omega, rfl, rfl,
        F64.le_lt_trans hb hlt, ?_⟩⟩
      · intro j hj
        rcases Nat.lt_succ_iff_lt_or_eq.mp hj with h | h
        · exact F64.le_of_lt_true (F64.le_lt_trans (hall j h) hlt)
        · subst h; exact F64.le_self (F64.ne_nan_of_le_right hsn)
      · intro j hj
        simp only [hkv] at hj
        exact F64.le_lt_trans (hall j hj) hlt
    · have hlt2 : F64.lt st.bestScore (scoreEnglish (singleXOR inp (byteOfNat n)) t) = false := by
        simpa using hlt
      rw [if_neg hlt]
      refine ⟨hb, ?_, ?_⟩
      · intro j hj
        rcases Nat.lt_succ_iff_lt_or_eq.mp hj with h | h
        · exact hall j h
        · subst h
          exact F64.le_of_lt_false (F64.ne_nan_of_le_right hb) (F64.ne_nan_of_le_right hsn) hlt2
      · rcases hshape with h | ⟨h1, h2⟩
        · exact Or.inl h
        · exact Or.inr ⟨by omega, h2⟩



theorem F64.round_zero : F64.round 0 = F64.zero := by
  rw [F64.round_def, F64.roundQ_zero]; simp [F64.zero]

theorem foldl_add_nil_table (rs : List Rune) :
    rs.foldl (fun score char => F64.add score (Table.get [] char)) F64.zero = F64.zero := by
  induction rs with
  | nil => rfl
  | cons r rest ih =>
    simp only [List.foldl_cons, Table.get]
    have : F64.add F64.zero F64.zero = F64.zero := by
      simp [F64.add, F64.zero, F64.round_zero]
    rw [this]; exact ih

/-- With the empty table every non-empty text scores zero. -/
theorem scoreEnglish_nil_table {text : List Byte} (hne : text ≠ [])
    (hlen : text.length < 2 ^ 63) : scoreEnglish text [] = F64.zero := by
  unfold scoreEnglish
  have h1 := runes_length_pos hne
  have h2 := runes_length_le text
  obtain ⟨m, hm, hof⟩ := F64.ofInt_pos (n := ((runes text).length : ℤ)) (by omega) (by omega)
  simp only [hof, foldl_add_nil_table]
  simp [F64.div, F64.zero, hm.ne', F64.round_zero]

/-- C1: for a non-empty ciphertext (its length an `int`) and a table whose values are
all non-negative, the key returned by `findSingleByteXOR` scores at least as high as
every one of the 256 keys, and strictly higher than every smaller key. -/
theorem findSingleByteXOR_highest_score (inp : List Byte) (corpus : Table)
    (hne : inp ≠ []) (hlen : inp.length < 2 ^ 63)
    (hcorpus : ∀ kv ∈ corpus, F64.le F64.zero kv.2 = true) :
    (∀ j : Byte, F64.le (scoreEnglish (singleXOR inp j) corpus)
        (scoreEnglish (singleXOR inp (findSingleByteXOR inp corpus).1) corpus) = true) ∧
    (∀ j : Byte, j < (findSingleByteXOR inp corpus).1 →
        F64.lt (scoreEnglish (singleXOR inp j) corpus)
          (scoreEnglish (singleXOR inp (findSingleByteXOR inp corpus).1) corpus) = true) := by
  have hs : ∀ k : Nat,
      F64.le F64.zero (scoreEnglish (singleXOR inp (byteOfNat k)) corpus) = true := by
    intro k
    have hl : (singleXOR inp (byteOfNat k)).length < 2 ^ 63 := by
      rw [singleXOR_length]; exact hlen
    exact le_zero_scoreEnglish (singleXOR_ne_nil hne _) hl hcorpus
  obtain ⟨_, hall, hshape⟩ := singleLoop_inv inp corpus hs 256 (Nat.le_refl 256)
  have hkey : (findSingleByteXOR inp corpus).1 = (singleLoop inp corpus 256).key := by
    simp only [findSingleByteXOR]
  rw [hkey]
  rcases hshape with ⟨_, hk, hb⟩ | ⟨_, _, hb, _, hlow⟩
  · have hz : ∀ j : Byte, scoreEnglish (singleXOR inp j) corpus = F64.zero := by
      intro j
      have h1 := hall j.val j.isLt
      rw [byteOfNat_val, hb] at h1
      have h2 := hs j.val
      rw [byteOfNat_val] at h2
      exact F64.eq_of_le_of_le h1 h2
    constructor
    · intro j
      rw [hz j, hz]
      simp [F64.le, F64.zero]
    · intro j hj
      rw [hk] at hj
      exact absurd hj (by simp)
  · constructor
    · intro j
      have h1 := hall j.val j.isLt
      rwa [byteOfNat_val, hb] at h1
    · intro j hj
      have h1 := hlow j.val hj
      rwa [byteOfNat_val, hb] at h1

/-- Witness of C1 on the one-byte ciphertext `0x41`, a table with the single entry
`a ↦ 1/2`, and the candidate key `0x07`. -/
theorem findSingleByteXOR_highest_score_witness :
    F64.le (scoreEnglish (singleXOR [0x41] 0x07) [(0x61, F64.fin (1 / 2))])
      (scoreEnglish (singleXOR [0x41] (findSingleByteXOR [0x41] [(0x61, F64.fin (1 / 2))]).1)
        [(0x61, F64.fin (1 / 2))]) = true :=
  (findSingleByteXOR_highest_score [0x41] [(0x61, F64.fin (1 / 2))] (by simp) (by simp)
    (by simp [F64.le, F64.zero])).1 0x07

/-- C2: on the one-byte ciphertext `0x41` with the empty table no candidate scores
above the initial best score 0, so `findSingleByteXOR` returns the key 0, the empty
plaintext and the score 0; the returned plaintext is not the ciphertext decrypted
under the returned key, which is the one-byte text `0x41`. -/
theorem findSingleByteXOR_no_positive_score :
    findSingleByteXOR [0x41] [] = (0, [], F64.zero) ∧
    singleXOR [0x41] (findSingleByteXOR [0x41] []).1 = [0x41] := by
  have hz : ∀ k : Byte, scoreEnglish (singleXOR [0x41] k) [] = F64.zero := fun k =>
    scoreEnglish_nil_table (by simp [singleXOR]) (by simp [singleXOR])
  have hs : ∀ k : Nat,
      F64.le F64.zero (scoreEnglish (singleXOR [0x41] (byteOfNat k)) []) = true := by
    intro k; rw [hz]; simp [F64.le, F64.zero]
  obtain ⟨_, _, hshape⟩ := singleLoop_inv [0x41] [] hs 256 (Nat.le_refl 256)
  have hres : findSingleByteXOR [0x41] [] = (0, [], F64.zero) := by
    rcases hshape with ⟨h1, h2, h3⟩ | ⟨_, _, hb, hpos, _⟩
    · unfold findSingleByteXOR
      simp only [h1, h2, h3]
    · rw [hb, hz] at hpos
      simp [F64.lt, F64.zero] at hpos
  refine ⟨hres, ?_⟩
  rw [hres]
  decide


/-! ## The loop of findRepeatingXORKeySize -/


/-- A slice expression within the length does not read the spare capacity. -/
theorem slice_of_le (s spare : List Byte) (lo hi : Nat) (h1 : lo ≤ hi)
    (h2 : hi ≤ s.length) :
    slice s spare (lo : ℤ) (hi : ℤ) = some ((s.take hi).drop lo) := by
  unfold slice
  rw [if_pos ⟨by omega, by omega, by omega⟩]
  simp only [Int.toNat_ofNat]
  rw [List.take_append_of_le_length h2]

/-- A slice expression beyond the capacity panics. -/
theorem slice_of_gt (s spare : List Byte) (lo : ℤ) {hi : Nat}
    (h : s.length + spare.length < hi) : slice s spare lo (hi : ℤ) = none := by
  unfold slice
  rw [if_neg]
  omega

/-- A slice expression sees a slice and its spare capacity as one backing array. -/
theorem slice_append (s spare : List Byte) (lo hi : ℤ) :
    slice s spare lo hi = slice (s ++ spare) [] lo hi := by
  unfold slice
  simp only [List.length_append, List.length_nil, List.append_nil, Nat.add_zero]

theorem onesCount8_le (x : Byte) : onesCount8 x ≤ 8 := by
  unfold onesCount8
  calc ((List.range 8).filter (fun j => x.val.testBit j)).length
      ≤ (List.range 8).length := List.length_filter_le _ _
    _ = 8 := by simp

theorem foldl_bits_le (l : List (Byte × Byte)) (acc : Nat) :
    l.foldl (fun res p => res + onesCount8 (p.1 ^^^ p.2)) acc ≤ acc + 8 * l.length := by
  induction l generalizing acc with
  | nil => simp
  | cons p rest ih =>
    simp only [List.foldl_cons, List.length_cons]
    have := ih (acc + onesCount8 (p.1 ^^^ p.2))
    have := onesCount8_le (p.1 ^^^ p.2)
    omega

theorem bitDistance_le (a b : List Byte) : bitDistance a b ≤ 8 * a.length := by
  unfold bitDistance
  have := foldl_bits_le (a.zip b) 0
  have h2 : (a.zip b).length ≤ a.length := by simp [List.length_zip]
  omega

/-- On a ciphertext whose capacity is too small for the candidate `k`, the slice
expressions panic. -/
theorem keySizeScore_none {inp spare : List Byte} {k : Nat}
    (h : inp.length + spare.length < 8 * k) : keySizeScore inp spare k = none := by
  unfold keySizeScore
  have h2 : slice inp spare ((k * 4 : ℕ) : ℤ) ((k * 4 * 2 : ℕ) : ℤ) = none :=
    slice_of_gt inp spare _ (by omega)
  rw [h2]
  cases slice inp spare 0 ((k * 4 : ℕ) : ℤ) <;> rfl

/-- The score of a candidate sees a slice and its spare capacity as one backing
array. -/
theorem keySizeScore_append (inp spare : List Byte) (k : Nat) :
    keySizeScore inp spare k = keySizeScore (inp ++ spare) [] k := by
  unfold keySizeScore
  rw [slice_append inp spare 0, slice_append inp spare ((k * 4 : ℕ) : ℤ)]

theorem drop_take_eq (inp : List Byte) (k : Nat) :
    (inp.take (k * 4 * 2)).drop (k * 4) = (inp.drop (4 * k)).take (4 * k) := by
  rw [List.drop_take]
  congr 1
  · omega
  · congr 1; omega

/-- On a ciphertext with two full samples for the candidate `k`, the score is the
`float64` quotient of the bit distance by `k`. -/
theorem keySizeScore_some {inp : List Byte} (spare : List Byte) {k : Nat}
    (h : 8 * k ≤ inp.length) :
    keySizeScore inp spare k = some (F64.div
      (F64.ofInt (bitDistance (inp.take (4 * k)) ((inp.drop (4 * k)).take (4 * k)) : ℕ))
      (F64.ofInt (k : ℕ))) := by
  unfold keySizeScore
  have h1 : slice inp spare 0 ((k * 4 : ℕ) : ℤ) = some (inp.take (k * 4)) := by
    have := slice_of_le inp spare 0 (k * 4) (by omega) (by omega)
    simpa using this
  have h2 : slice inp spare ((k * 4 : ℕ) : ℤ) ((k * 4 * 2 : ℕ) : ℤ)
      = some ((inp.take (k * 4 * 2)).drop (k * 4)) :=
    slice_of_le inp spare (k * 4) (k * 4 * 2) (by omega) (by omega)
  rw [h1, h2]
  simp only [drop_take_eq]
  have hl : (inp.take (k * 4)).length = ((inp.drop (4 * k)).take (4 * k)).length := by
    simp only [List.length_take, List.length_drop]; omega
  unfold hammingDistance
  rw [if_neg (by simpa using hl)]
  simp only [Nat.mul_comm k 4]


/-- The normalized distance is a quotient of a natural number at most `32 k` by `k`. -/
theorem normDistance_bounds (inp : List Byte) {k : Nat} (hk : 1 ≤ k) :
    0 ≤ normDistance inp k ∧ normDistance inp k ≤ 32 := by
  unfold normDistance
  have hd := bitDistance_le (inp.take (4 * k)) ((inp.drop (4 * k)).take (4 * k))
  have hl : (inp.take (4 * k)).length ≤ 4 * k := by simp
  have hk0 : (0 : ℚ) < (k : ℚ) := by exact_mod_cast hk
  constructor
  · positivity
  · rw [div_le_iff₀ hk0]
    have : bitDistance (inp.take (4 * k)) ((inp.drop (4 * k)).take (4 * k)) ≤ 32 * k := by omega
    exact_mod_cast this

/-- A value between 0 and 32 rounds to a finite value within `2^-48` of it. -/
theorem round_small {q : ℚ} (h0 : 0 ≤ q) (h1 : q ≤ 32) :
    F64.round q = F64.fin (F64.roundQ q) ∧ |F64.roundQ q - q| ≤ (2 : ℚ) ^ (-48 : ℤ) := by
  have habs : |q| < (2 : ℚ) ^ ((5 : ℤ) + 1) := by
    rw [abs_of_nonneg h0]
    calc q ≤ 32 := h1
      _ < (2 : ℚ) ^ ((5 : ℤ) + 1) := by norm_num
  have herr := F64.abs_roundQ_sub_le_zpow (by norm_num) habs
  have e : ((5 : ℤ) - 53) = -48 := by norm_num
  rw [e] at herr
  refine ⟨?_, herr⟩
  rw [F64.round_def, if_neg]
  rw [not_le]
  have h48 : (2 : ℚ) ^ (-48 : ℤ) ≤ 1 := by
    rw [zpow_neg]; exact inv_le_one_of_one_le₀ (by norm_num)
  have hr : |F64.roundQ q| ≤ 33 := by
    rw [abs_le] at herr ⊢
    constructor <;> linarith [herr.1, herr.2]
  calc |F64.roundQ q| ≤ 33 := hr
    _ < (2 : ℚ) ^ (1024 : ℕ) := by norm_num

/-- Two quotients with denominators up to 40 that differ, differ by at least
`1/1600`. -/
theorem quot_gap {a b k1 k2 : Nat} (hk1 : 1 ≤ k1) (hk1' : k1 ≤ 40) (hk2 : 1 ≤ k2)
    (hk2' : k2 ≤ 40) (h : (a : ℚ) / k1 < (b : ℚ) / k2) :
    (a : ℚ) / k1 + 1 / 1600 ≤ (b : ℚ) / k2 := by
  have p1 : (0 : ℚ) < k1 := by exact_mod_cast hk1
  have p2 : (0 : ℚ) < k2 := by exact_mod_cast hk2
  rw [div_lt_div_iff₀ p1 p2] at h
  have hnat : a * k2 + 1 ≤ b * k1 := by
    have : a * k2 < b * k1 := by exact_mod_cast h
    omega
  have hq : (a : ℚ) * k2 + 1 ≤ (b : ℚ) * k1 := by exact_mod_cast hnat
  have hk : (k1 : ℚ) * k2 ≤ 1600 := by
    have : k1 * k2 ≤ 40 * 40 := Nat.mul_le_mul hk1' hk2'
    exact_mod_cast this
  rw [← sub_nonneg]
  have e : (b : ℚ) / k2 - ((a : ℚ) / k1 + 1 / 1600)
      = ((b * k1 - a * k2) * 1600 - k1 * k2) / (1600 * k1 * k2) := by
    field_simp; ring
  rw [e]
  apply div_nonneg
  · nlinarith
  · positivity



/-- For candidates between 1 and 40 the `float64` scores compare as the exact
normalized distances do. -/
theorem lt_round_normDistance (inp : List Byte) (k1 k2 : Nat) (hk1 : 1 ≤ k1) (hk1' : k1 ≤ 40)
    (hk2 : 1 ≤ k2) (hk2' : k2 ≤ 40) :
    F64.lt (F64.round (normDistance inp k1)) (F64.round (normDistance inp k2)) = true
      ↔ normDistance inp k1 < normDistance inp k2 := by
  obtain ⟨a0, a1⟩ := normDistance_bounds inp hk1
  obtain ⟨b0, b1⟩ := normDistance_bounds inp hk2
  obtain ⟨ra, ea⟩ := round_small a0 a1
  obtain ⟨rb, eb⟩ := round_small b0 b1
  have h48 : (2 : ℚ) ^ (-48 : ℤ) < 1 / 3200 := by
    rw [zpow_neg, inv_eq_one_div]
    apply one_div_lt_one_div_of_lt (by norm_num)
    norm_num
  rw [abs_le] at ea eb
  have key : ∀ {x y : ℕ}, 1 ≤ x → x ≤ 40 → 1 ≤ y → y ≤ 40 →
      normDistance inp x < normDistance inp y →
      |F64.roundQ (normDistance inp x) - normDistance inp x| ≤ (2 : ℚ) ^ (-48 : ℤ) →
      |F64.roundQ (normDistance inp y) - normDistance inp y| ≤ (2 : ℚ) ^ (-48 : ℤ) →
      F64.roundQ (normDistance inp x) < F64.roundQ (normDistance inp y) := by
    intro x y hx hx' hy hy' hlt ex ey
    have g : normDistance inp x + 1 / 1600 ≤ normDistance inp y :=
      quot_gap hx hx' hy hy' hlt
    rw [abs_le] at ex ey
    obtain ⟨ex1, ex2⟩ := ex
    obtain ⟨ey1, ey2⟩ := ey
    generalize (2 : ℚ) ^ (-48 : ℤ) = e at h48 ex1 ex2 ey1 ey2
    linarith
  rw [ra, rb]
  simp only [F64.lt, decide_eq_true_eq]
  constructor
  · intro h
    by_contra hn
    rcases lt_or_eq_of_le (not_lt.mp hn) with h2 | h2
    · have := key hk2 hk2' hk1 hk1' h2 (abs_le.mpr eb) (abs_le.mpr ea)
      linarith
    · rw [h2] at h; exact lt_irrefl _ h
  · intro h
    exact key hk1 hk1' hk2 hk2' h (abs_le.mpr ea) (abs_le.mpr eb)

/-- The score of a candidate between 2 and 40 on a ciphertext with two full
samples is the rounded normalized distance. -/
theorem keySizeScore_eq_round {inp : List Byte} (spare : List Byte) {k : Nat}
    (hk : 1 ≤ k) (hk' : k ≤ 40) (h : 8 * k ≤ inp.length) :
    keySizeScore inp spare k = some (F64.round (normDistance inp k)) := by
  rw [keySizeScore_some spare h]
  have hd := bitDistance_le (inp.take (4 * k)) ((inp.drop (4 * k)).take (4 * k))
  have hl : (inp.take (4 * k)).length ≤ 4 * k := by simp
  have e1 : F64.ofInt ((bitDistance (inp.take (4 * k)) ((inp.drop (4 * k)).take (4 * k)) : ℕ) : ℤ)
      = F64.fin (bitDistance (inp.take (4 * k)) ((inp.drop (4 * k)).take (4 * k)) : ℕ) := by
    have := F64.round_intCast
      ((bitDistance (inp.take (4 * k)) ((inp.drop (4 * k)).take (4 * k)) : ℕ) : ℤ)
      (by rw [abs_of_nonneg (by positivity)]; omega)
    simpa [F64.ofInt] using this
  have e2 : F64.ofInt ((k : ℕ) : ℤ) = F64.fin (k : ℕ) := by
    have := F64.round_intCast ((k : ℕ) : ℤ) (by rw [abs_of_nonneg (by positivity)]; omega)
    simpa [F64.ofInt] using this
  rw [e1, e2]
  have hk0 : ((k : ℕ) : ℚ) ≠ 0 := by
    have : (0 : ℚ) < (k : ℚ) := by exact_mod_cast hk
    exact this.ne'
  simp only [F64.div, if_neg hk0, normDistance]

/-- Every rounded normalized distance is below `math.MaxFloat64`. -/
theorem lt_maxFloat64_round (inp : List Byte) {k : Nat} (hk : 1 ≤ k) :
    F64.lt (F64.round (normDistance inp k)) F64.maxFloat64 = true := by
  obtain ⟨a0, a1⟩ := normDistance_bounds inp hk
  obtain ⟨ra, ea⟩ := round_small a0 a1
  rw [ra]
  simp only [F64.lt, F64.maxFloat64, decide_eq_true_eq]
  have h48 : (2 : ℚ) ^ (-48 : ℤ) ≤ 1 := by
    rw [zpow_neg]; exact inv_le_one_of_one_le₀ (by norm_num)
  rw [abs_le] at ea
  calc F64.roundQ (normDistance inp k) ≤ 33 := by linarith [ea.2]
    _ < (2 ^ 53 - 1) * 2 ^ 971 := by norm_num



theorem range2_succ (n : Nat) : List.range' 2 (n + 1) = List.range' 2 n ++ [n + 2] := by
  rw [List.range'_concat]; simp [Nat.add_comm]

/-- The invariant of the loop of `findRepeatingXORKeySize` on a ciphertext of at
least 320 bytes: after the candidates `2 .. n+1` the loop has not panicked, `res` is
the first candidate of least normalized distance and `bestScore` is its score. -/
theorem keySizeLoop_inv (inp spare : List Byte) (hlen : 320 ≤ inp.length) (n : Nat)
    (h1 : 1 ≤ n) (h39 : n ≤ 39) :
    ∃ st : KeySizeState,
      (List.range' 2 n).foldlM (keySizeStep inp spare) ⟨0, F64.maxFloat64⟩ = some st ∧
      2 ≤ st.res ∧ st.res ≤ n + 1 ∧
      st.bestScore = F64.round (normDistance inp st.res) ∧
      (∀ j, 2 ≤ j → j ≤ n + 1 → normDistance inp st.res ≤ normDistance inp j) ∧
      (∀ j, 2 ≤ j → j < st.res → normDistance inp st.res < normDistance inp j) := by
  induction n with
  | zero => omega
  | succ n ih =>
    rcases Nat.eq_zero_or_pos n with h0 | hpos
    · subst h0
      refine ⟨⟨2, F64.round (normDistance inp 2)⟩, ?_, le_rfl, le_rfl, rfl, ?_, ?_⟩
      · simp only [List.range', List.foldlM_cons, List.foldlM_nil]
        unfold keySizeStep
        rw [keySizeScore_eq_round spare (by omega) (by omega) (by omega)]
        simp only [lt_maxFloat64_round inp (show 1 ≤ 2 by omega)]
        rfl
      · intro j hj hj2
        have : j = 2 := by omega
        subst this; exact le_rfl
      · intro j hj hj2
        simp only at hj2
        omega
    · obtain ⟨st, hfold, hr2, hrn, hbest, hle, hlt⟩ := ih hpos (by omega)
      rw [range2_succ, List.foldlM_append, hfold]
      simp only [List.foldlM_cons, List.foldlM_nil, Option.some_bind, Option.pure_def,
        Option.bind_eq_bind]
      unfold keySizeStep
      rw [keySizeScore_eq_round spare (by omega) (by omega) (by omega)]
      simp only [hbest]
      by_cases hc : normDistance inp (n + 2) < normDistance inp st.res
      · have hc2 := (lt_round_normDistance inp (n + 2) st.res (by omega)
          (by omega) (by omega) (by omega)).mpr hc
        refine ⟨⟨n + 2, F64.round (normDistance inp (n + 2))⟩, ?_, by simp, by simp, rfl, ?_, ?_⟩
        · simp [hc2]
        · intro j hj hj2
          simp only at *
          rcases Nat.lt_or_ge j (n + 2) with h | h
          · exact (hc.trans_le (hle j hj (by omega))).le
          · have : j = n + 2 := by omega
            subst this; exact le_rfl
        · intro j hj hj2
          simp only at *
          exact hc.trans_le (hle j hj (by omega))
      · have hc2 : F64.lt (F64.round (normDistance inp (n + 2)))
            (F64.round (normDistance inp st.res)) = false := by
          rw [Bool.eq_false_iff]
          intro h
          exact hc ((lt_round_normDistance inp (n + 2) st.res (by omega)
            (by omega) (by omega) (by omega)).mp h)
        refine ⟨st, ?_, hr2, by omega, hbest, ?_, hlt⟩
        · simp [hc2]
        · intro j hj hj2
          rcases Nat.lt_or_ge j (n + 2) with h | h
          · exact hle j hj (by omega)
          · have : j = n + 2 := by omega
            subst this; exact not_lt.mp hc

/-- A step that panics makes the whole loop panic. -/
theorem foldlM_keySizeStep_none (inp spare : List Byte) (l : List Nat)
    (h : ∃ k ∈ l, keySizeScore inp spare k = none) (st : KeySizeState) :
    l.foldlM (keySizeStep inp spare) st = none := by
  induction l generalizing st with
  | nil => simp at h
  | cons a rest ih =>
    simp only [List.foldlM_cons]
    cases hstep : keySizeStep inp spare st a with
    | none => rfl
    | some st2 =>
      obtain ⟨k, hk, hnone⟩ := h
      rcases List.mem_cons.mp hk with rfl | hk2
      · simp [keySizeStep, hnone] at hstep
      · exact ih ⟨k, hk2, hnone⟩ st2

/-- C3: on a ciphertext of at least 320 bytes, whatever its spare capacity,
`findRepeatingXORKeySize` returns a length `k` between 2 and 40 whose normalized
distance is at most that of every candidate in 2..40 and strictly below that of every
smaller candidate. -/
theorem findRepeatingXORKeySize_lowest_distance (inp spare : List Byte)
    (hlen : 320 ≤ inp.length) :
    ∃ k : Nat, findRepeatingXORKeySize inp spare = some k ∧ 2 ≤ k ∧ k ≤ 40 ∧
      (∀ j, 2 ≤ j → j ≤ 40 → normDistance inp k ≤ normDistance inp j) ∧
      (∀ j, 2 ≤ j → j < k → normDistance inp k < normDistance inp j) := by
  obtain ⟨st, hfold, h2, h40, _, hle, hlt⟩ :=
    keySizeLoop_inv inp spare hlen 39 (by omega) (Nat.le_refl 39)
  refine ⟨st.res, ?_, h2, h40, hle, hlt⟩
  unfold findRepeatingXORKeySize
  rw [hfold]

/-- Witness of C3 on the ciphertext of 320 zero bytes with one spare byte. -/
theorem findRepeatingXORKeySize_lowest_distance_witness :
    ∃ k : Nat, findRepeatingXORKeySize (List.replicate 320 0) [1] = some k ∧
      2 ≤ k ∧ k ≤ 40 :=
  (findRepeatingXORKeySize_lowest_distance (List.replicate 320 0) [1]
    (le_of_eq (List.length_replicate 320 (0 : Byte)).symm)).imp
    (fun _ h => ⟨h.1, h.2.1, h.2.2.1⟩)

/-! ## The loops of findRepeatingXORKey -/


/-- A loop over the indices `0 .. n-1` that either leaves a list of length `m` alone
or stores a value at the index: it does not panic, keeps the length, and the entry at
each index is the value stored there, if any. -/
theorem foldlM_range_set {α : Type} (step : List α → Nat → Option (List α))
    (w : Nat → Option α) (m n : Nat) (init : List α) (hinit : init.length = m)
    (hstep : ∀ i < n, ∀ blk : List α, blk.length = m →
      step blk i = some (match w i with
        | none => blk
        | some v => blk.set i v)) :
    ∃ res : List α, (List.range n).foldlM step init = some res ∧ res.length = m ∧
      ∀ i, res[i]? = if i < n then
          (match w i with
            | none => init[i]?
            | some v => if i < m then some v else none)
        else init[i]? := by
  induction n with
  | zero => exact ⟨init, by simp, hinit, by simp⟩
  | succ n ih =>
    obtain ⟨res, hfold, hlen, hget⟩ := ih (fun i hi => hstep i (by omega))
    rw [List.range_succ, List.foldlM_append, hfold]
    simp only [List.foldlM_cons, List.foldlM_nil, Option.some_bind, Option.pure_def,
      Option.bind_eq_bind]
    rw [hstep n (by omega) res hlen]
    refine ⟨(match w n with
        | none => res
        | some v => res.set n v), rfl, ?_, ?_⟩
    · cases w n <;> simp [hlen]
    · intro i
      rcases Nat.lt_trichotomy i n with h | h | h
      · rw [if_pos (by omega)]
        have := hget i
        rw [if_pos h] at this
        rw [← this]
        cases w n with
        | none => rfl
        | some v => simp only [List.getElem?_set]; rw [if_neg (by omega)]
      · subst h
        rw [if_pos (by omega)]
        have := hget i
        rw [if_neg (by omega)] at this
        cases w i with
        | none => simpa using this
        | some v =>
          simp only [List.getElem?_set, hlen]
          simp
      · rw [if_neg (by omega)]
        have := hget i
        rw [if_neg (by omega)] at this
        rw [← this]
        cases w n with
        | none => rfl
        | some v => simp only [List.getElem?_set]; rw [if_neg (by omega)]



/-- Row `r` lies in column `c` exactly when its position is below the length. -/
theorem lt_column_length_iff (len K c r : Nat) (hK : 1 ≤ K) :
    r < (len - c + K - 1) / K ↔ r * K + c < len := by
  rw [Nat.lt_iff_add_one_le, Nat.le_div_iff_mul_le (by omega)]
  have : (r + 1) * K = r * K + K := by ring
  rw [this]
  omega

theorem column_length (inp : List Byte) (K c : Nat) :
    (column inp K c).length = (inp.length - c + K - 1) / K := by
  simp [column]

theorem column_getElem? (inp : List Byte) (K c r : Nat) (hK : 1 ≤ K) :
    (column inp K c)[r]? = if r * K + c < inp.length then inp[r * K + c]? else none := by
  unfold column
  rw [List.getElem?_map]
  by_cases h : r * K + c < inp.length
  · rw [if_pos h, List.getElem?_range ((lt_column_length_iff _ K c r hK).mpr h)]
    simp only [Option.map_some', List.getD_eq_getElem?_getD]
    rw [Nat.add_comm c, List.getElem?_eq_getElem h]
    rfl
  · rw [if_neg h, List.getElem?_eq_none]
    · rfl
    · rw [List.length_range]
      exact not_lt.mp (fun hh => h ((lt_column_length_iff _ K c r hK).mp hh))

/-- The number of rows is the least multiple count covering the ciphertext. -/
theorem nRow_bounds (len K : Nat) (hK : 1 ≤ K) (hlen : 1 ≤ len) :
    1 ≤ (len + K - 1) / K ∧ ((len + K - 1) / K - 1) * K < len ∧
      len ≤ (len + K - 1) / K * K := by
  have h1 : 1 ≤ (len + K - 1) / K := by
    rw [Nat.le_div_iff_mul_le (by omega)]; omega
  have h2 := Nat.div_mul_le_self (len + K - 1) K
  have h3 := Nat.lt_div_mul_add (a := len + K - 1) (b := K) (by omega)
  refine ⟨h1, ?_, ?_⟩
  · have : ((len + K - 1) / K - 1) * K = (len + K - 1) / K * K - K := by
      rw [Nat.sub_mul, Nat.one_mul]
    omega
  · omega

/-- The block built for column `c` is the column of the specification. -/
theorem columnBlock_eq (inp : List Byte) (K c : Nat) (hK : 1 ≤ K) (hc : c < K)
    (hlen : 1 ≤ inp.length) :
    columnBlock inp K ((inp.length + K - 1) / K) c = some (column inp K c) := by
  obtain ⟨hn1, hn2, hn3⟩ := nRow_bounds inp.length K hK hlen
  generalize hnRow : (inp.length + K - 1) / K = nRow at hn1 hn2 hn3
  -- the rows below `nRow - 1` are in range
  have hrow : ∀ r, r + 1 < nRow → r * K + c < inp.length := by
    intro r hr
    have : (r + 1) * K ≤ (nRow - 1) * K := Nat.mul_le_mul_right K (by omega)
    have e : (r + 1) * K = r * K + K := by ring
    omega
  have hrow2 : ∀ r, nRow ≤ r → inp.length ≤ r * K + c := by
    intro r hr
    have : nRow * K ≤ r * K := Nat.mul_le_mul_right K hr
    omega
  have hcast : ((nRow : ℤ) - 1) * (K : ℤ) + (c : ℤ) = (((nRow - 1) * K + c : ℕ) : ℤ) := by
    push_cast [Nat.cast_sub hn1]; ring
  -- the length of the block is the number of rows in range
  have key := fun r => lt_column_length_iff inp.length K c r hK
  have hm : (if (nRow - 1) * K + c ≥ inp.length then nRow - 1 else nRow)
      = (inp.length - c + K - 1) / K := by
    generalize (inp.length - c + K - 1) / K = m at key
    split_ifs with h
    · have h1 : ¬ (nRow - 1 < m) := fun hh => by
        have := (key (nRow - 1)).mp hh
        omega
      have h2 : nRow - 1 = 0 ∨ nRow - 2 < m := by
        rcases Nat.eq_zero_or_pos (nRow - 1) with h0 | h0
        · exact Or.inl h0
        · exact Or.inr ((key (nRow - 2)).mpr (hrow _ (by omega)))
      omega
    · have h1 : nRow - 1 < m := (key (nRow - 1)).mpr (by omega)
      have h2 : ¬ (nRow < m) := fun hh => by
        have := (key nRow).mp hh
        omega
      omega
  have hm2 : ∀ r, r < (inp.length - c + K - 1) / K → r < nRow := by
    intro r hr
    by_contra hcon
    have := (key r).mp hr
    have := hrow2 r (by omega)
    omega
  -- both branches fill a block of that length
  have hfill : fillBlock inp K c (List.replicate ((inp.length - c + K - 1) / K) 0) nRow
      = some (column inp K c) := by
    unfold fillBlock
    obtain ⟨res, hfold, hlen2, hget⟩ := foldlM_range_set
      (fun (blk : List Byte) (row : Nat) =>
        if row * K + c ≥ inp.length then some blk
        else
          match inp.get? (row * K + c) with
          | none => none
          | some v => if row < blk.length then some (blk.set row v) else none)
      (fun row => if row * K + c ≥ inp.length then none else inp[row * K + c]?)
      ((inp.length - c + K - 1) / K) nRow
      (List.replicate ((inp.length - c + K - 1) / K) 0) (by simp)
      (by
        intro row _ blk hblk
        by_cases h : row * K + c ≥ inp.length
        · simp only [if_pos h]
        · simp only [if_neg h]
          have hlt : row * K + c < inp.length := by omega
          rw [List.get?_eq_getElem?, List.getElem?_eq_getElem hlt]
          simp only
          rw [if_pos (by rw [hblk]; exact (key row).mpr hlt)])
    refine hfold.trans (congrArg some ?_)
    apply List.ext_getElem?
    intro i
    rw [hget i, column_getElem? inp K c i hK]
    by_cases h : i * K + c < inp.length
    · have h1 := (key i).mpr h
      have h2 := hm2 i h1
      rw [if_pos h2, if_pos h, if_neg (by omega)]
      rw [List.getElem?_eq_getElem h]
      simp only
      rw [if_pos h1]
    · have h1 : ¬ i < (inp.length - c + K - 1) / K := fun hh => h ((key i).mp hh)
      have h3 : (List.replicate ((inp.length - c + K - 1) / K) (0 : Byte))[i]? = none := by
        rw [List.getElem?_eq_none]; simp; omega
      rw [if_neg h, h3]
      split_ifs <;> first | rfl | omega
  unfold columnBlock
  rw [hcast]
  split_ifs with h1 h2
  · omega
  · have : nRow - 1 = (inp.length - c + K - 1) / K := by
      rw [← hm, if_pos (by exact_mod_cast h1)]
    rw [this]; exact hfill
  · have : nRow = (inp.length - c + K - 1) / K := by
      rw [← hm, if_neg (by intro hh; exact h1 (by exact_mod_cast hh))]
    rw [← this] at hfill
    exact hfill



/-- C5: on a ciphertext of at least 320 bytes, whatever its spare capacity,
`findRepeatingXORKey` returns a key of
the length `K` that `findRepeatingXORKeySize` returns; its byte at each column `c`
below `K` is the key that `findSingleByteXOR` returns on column `c`; that column has
`⌈(len - c) / K⌉` bytes, and its byte in row `r` is the ciphertext byte at the
position `r * K + c`, which lies below the length of the ciphertext. -/
theorem findRepeatingXORKey_columns (inp spare : List Byte) (corpus : Table)
    (hlen : 320 ≤ inp.length) :
    ∃ (K : Nat) (key : List Byte),
      findRepeatingXORKeySize inp spare = some K ∧
      findRepeatingXORKey inp spare corpus = some key ∧
      key.length = K ∧
      ∀ c, c < K →
        key[c]? = some (findSingleByteXOR (column inp K c) corpus).1 ∧
        (column inp K c).length = (inp.length - c + K - 1) / K ∧
        ∀ r, r < (column inp K c).length →
          r * K + c < inp.length ∧ (column inp K c)[r]? = inp[r * K + c]? := by
  obtain ⟨st, hfold, h2, h40, _⟩ :=
    keySizeLoop_inv inp spare hlen 39 (by omega) (Nat.le_refl 39)
  have hK : findRepeatingXORKeySize inp spare = some st.res := by
    unfold findRepeatingXORKeySize; rw [hfold]
  generalize st.res = K at h2 h40 hK
  obtain ⟨key, hkey, hklen, hget⟩ := foldlM_range_set
    (fun (key : List Byte) (col : Nat) =>
      match columnBlock inp K ((inp.length + K - 1) / K) col with
      | none => none
      | some block =>
        if col < key.length then some (key.set col (findSingleByteXOR block corpus).1)
        else none)
    (fun col => some (findSingleByteXOR (column inp K col) corpus).1)
    K K (List.replicate K 0) (by simp)
    (by
      intro col hcol key hkey
      simp only
      rw [columnBlock_eq inp K col (by omega) hcol (by omega)]
      simp only
      rw [if_pos (by omega)])
  refine ⟨K, key, hK, ?_, hklen, ?_⟩
  · unfold findRepeatingXORKey
    rw [hK]
    simp only
    rw [if_neg (by omega)]
    exact hkey
  · intro c hc
    refine ⟨?_, column_length inp K c, ?_⟩
    · rw [hget c, if_pos hc]
      simp only
      rw [if_pos hc]
    · intro r hr
      rw [column_length] at hr
      have hpos := (lt_column_length_iff inp.length K c r (by omega)).mp hr
      refine ⟨hpos, ?_⟩
      rw [column_getElem? inp K c r (by omega), if_pos hpos]

/-- Witness of C5 on the ciphertext of 320 zero bytes with one spare byte and the
empty table. -/
theorem findRepeatingXORKey_columns_witness :
    ∃ (K : Nat) (key : List Byte),
      findRepeatingXORKeySize (List.replicate 320 0) [1] = some K ∧
      findRepeatingXORKey (List.replicate 320 0) [1] [] = some key ∧ key.length = K :=
  match findRepeatingXORKey_columns (List.replicate 320 0) [1] []
      (le_of_eq (List.length_replicate 320 (0 : Byte)).symm) with
  | ⟨K, key, h1, h2, h3, _⟩ => ⟨K, key, h1, h2, h3⟩


/-! ## The loop of detectECB -/


/-- The loop of `detectECB` over a ciphertext of `nb` blocks, started at block `t`
with enough fuel: it does not panic, and it answers `true` exactly when some block
from `t` on equals a block seen before it. -/
theorem detectECBLoop_spec (inp spare : List Byte) (b nb : Nat) (hb : 0 < b)
    (hlen : inp.length = nb * b) (fuel : Nat) :
    ∀ (t : Nat) (seen : List (List Byte)), t ≤ nb → nb - t < fuel →
      ∃ r : Bool, detectECBLoop inp spare (b : ℤ) fuel ((t * b : ℕ) : ℤ) seen = some r ∧
        (r = true ↔ ∃ j, t ≤ j ∧ j < nb ∧
          (block inp b j ∈ seen ∨ ∃ i, t ≤ i ∧ i < j ∧ block inp b i = block inp b j)) := by
  induction fuel with
  | zero => intro t seen _ h; omega
  | succ fuel ih =>
    intro t seen ht hfuel
    unfold detectECBLoop
    by_cases hlt : t < nb
    · have h1 : (t + 1) * b ≤ nb * b := Nat.mul_le_mul_right b hlt
      have h2 : (t + 1) * b = t * b + b := by ring
      have hi : ((t * b : ℕ) : ℤ) < (inp.length : ℤ) := by
        rw [hlen]; exact_mod_cast (by omega : t * b < nb * b)
      rw [if_pos hi]
      have hs : slice inp spare ((t * b : ℕ) : ℤ) (((t * b : ℕ) : ℤ) + (b : ℤ))
          = some (block inp b t) := by
        have := slice_of_le inp spare (t * b) ((t + 1) * b) (by omega) (by omega)
        have e : ((t * b : ℕ) : ℤ) + (b : ℤ) = (((t + 1) * b : ℕ) : ℤ) := by
          push_cast; ring
        rw [e, this]
        rfl
      rw [hs]
      simp only
      by_cases hmem : block inp b t ∈ seen
      · rw [if_pos hmem]
        exact ⟨true, rfl, by simpa using ⟨t, le_rfl, hlt, Or.inl hmem⟩⟩
      · rw [if_neg hmem]
        have hnext : ((t * b : ℕ) : ℤ) + (b : ℤ) = (((t + 1) * b : ℕ) : ℤ) := by
          push_cast; ring
        rw [hnext]
        obtain ⟨r, hr, hiff⟩ := ih (t + 1) (block inp b t :: seen) hlt (by omega)
        refine ⟨r, hr, hiff.trans ?_⟩
        constructor
        · rintro ⟨j, hj1, hj2, hj3⟩
          refine ⟨j, by omega, hj2, ?_⟩
          rcases hj3 with hj3 | ⟨i, hi1, hi2, hi3⟩
          · rcases List.mem_cons.mp hj3 with h | h
            · exact Or.inr ⟨t, le_rfl, by omega, h.symm⟩
            · exact Or.inl h
          · exact Or.inr ⟨i, by omega, hi2, hi3⟩
        · rintro ⟨j, hj1, hj2, hj3⟩
          rcases hj3 with hj3 | ⟨i, hi1, hi2, hi3⟩
          · have hjt : j ≠ t := fun h => hmem (h ▸ hj3)
            exact ⟨j, by omega, hj2, Or.inl (List.mem_cons_of_mem _ hj3)⟩
          · refine ⟨j, by omega, hj2, ?_⟩
            rcases Nat.eq_or_lt_of_le hi1 with h | h
            · subst h
              exact Or.inl (by rw [← hi3]; exact List.mem_cons_self _ _)
            · exact Or.inr ⟨i, h, hi2, hi3⟩
    · have hi : ¬ ((t * b : ℕ) : ℤ) < (inp.length : ℤ) := by
        have : t = nb := by omega
        rw [hlen, this]; simp
      rw [if_neg hi]
      refine ⟨false, rfl, ?_⟩
      simp only [Bool.false_eq_true, false_iff, not_exists, not_and]
      intro j hj1 hj2
      omega



theorem tmod_natCast (m n : Nat) : Int.tmod (m : ℤ) (n : ℤ) = ((m % n : ℕ) : ℤ) :=
  (Int.ofNat_tmod m n).symm

/-- On a ciphertext of whole blocks `detectECB` does not panic. -/
theorem detectECB_some_of_dvd (inp spare : List Byte) (b : Nat) (hb : 0 < b)
    (hmul : b ∣ inp.length) : ∃ r : Bool, detectECB inp spare (b : ℤ) = some r := by
  have hlen : inp.length = inp.length / b * b := (Nat.div_mul_cancel hmul).symm
  have hnb : inp.length / b ≤ inp.length := Nat.div_le_self _ _
  obtain ⟨r, hr, _⟩ := detectECBLoop_spec inp spare b (inp.length / b) hb hlen
    (inp.length + 1) 0 [] (Nat.zero_le _) (by omega)
  refine ⟨r, ?_⟩
  unfold detectECB
  rw [if_neg (by exact_mod_cast hb.ne'), tmod_natCast, if_neg]
  · simpa using hr
  · simp [Nat.mod_eq_zero_of_dvd hmul]

/-- C6: for a positive block size `b` dividing the length of the ciphertext, whatever
its spare capacity, `detectECB` returns a boolean, and it is `true` exactly when two blocks
`ciphertext[i*b : (i+1)*b]` and `ciphertext[j*b : (j+1)*b]` with `i < j` are equal;
so it is `false` when no block is repeated. -/
theorem detectECB_iff_repeated_block (inp spare : List Byte) (b : Nat) (hb : 0 < b)
    (hmul : b ∣ inp.length) :
    ∃ r : Bool, detectECB inp spare (b : ℤ) = some r ∧
      (r = true ↔ ∃ i j, i < j ∧ j < inp.length / b ∧ block inp b i = block inp b j) := by
  have hlen : inp.length = inp.length / b * b := (Nat.div_mul_cancel hmul).symm
  have hnb : inp.length / b ≤ inp.length := Nat.div_le_self _ _
  obtain ⟨r, hr, hiff⟩ := detectECBLoop_spec inp spare b (inp.length / b) hb hlen
    (inp.length + 1) 0 [] (Nat.zero_le _) (by omega)
  refine ⟨r, ?_, hiff.trans ?_⟩
  · unfold detectECB
    rw [if_neg (by exact_mod_cast hb.ne'), tmod_natCast, if_neg]
    · simpa using hr
    · simp [Nat.mod_eq_zero_of_dvd hmul]
  · constructor
    · rintro ⟨j, _, hj2, hj3⟩
      rcases hj3 with hj3 | ⟨i, _, hi2, hi3⟩
      · simp at hj3
      · exact ⟨i, j, hi2, hj2, hi3⟩
    · rintro ⟨i, j, hij, hj, h⟩
      exact ⟨j, Nat.zero_le _, hj, Or.inr ⟨i, Nat.zero_le _, hij, h⟩⟩

/-- Witness of C6 on two equal blocks of two bytes with one spare byte. -/
theorem detectECB_iff_repeated_block_witness :
    ∃ r : Bool, detectECB [1, 2, 1, 2] [7] ((2 : ℕ) : ℤ) = some r ∧
      (r = true ↔ ∃ i j, i < j ∧ j < ([1, 2, 1, 2] : List Byte).length / 2 ∧
        block [1, 2, 1, 2] 2 i = block [1, 2, 1, 2] 2 j) :=
  detectECB_iff_repeated_block [1, 2, 1, 2] [7] 2 (by decide) (by decide)

/-- C7: for a positive block size `b`, `detectECB` panics, returning no boolean,
exactly when the length of the ciphertext is not a multiple of `b`, whatever its spare
capacity. -/
theorem detectECB_none_iff (inp spare : List Byte) (b : Nat) (hb : 0 < b) :
    detectECB inp spare (b : ℤ) = none ↔ ¬ b ∣ inp.length := by
  constructor
  · intro h hmul
    obtain ⟨r, hr⟩ := detectECB_some_of_dvd inp spare b hb hmul
    rw [hr] at h
    exact absurd h (by simp)
  · intro h
    unfold detectECB
    rw [if_neg (by exact_mod_cast hb.ne'), tmod_natCast, if_pos]
    intro h0
    exact h (Nat.dvd_of_mod_eq_zero (by exact_mod_cast h0))

/-- Witness of C7 on three bytes, with a fourth byte of spare capacity, and the block
size 2. -/
theorem detectECB_none_iff_witness :
    detectECB [1, 2, 3] [4] ((2 : ℕ) : ℤ) = none ↔ ¬ 2 ∣ ([1, 2, 3] : List Byte).length :=
  detectECB_none_iff [1, 2, 3] [4] 2 (by decide)

/-! ## scoreEnglish and buildCorpus -/


theorem Table.get_eq_valueOr0 (t : Table) (r : Rune) : t.get r = t.valueOr0 r := by
  induction t with
  | nil => rfl
  | cons kv rest ih =>
    obtain ⟨k, v⟩ := kv
    unfold Table.get Table.valueOr0
    by_cases h : k = r
    · simp [h]
    · simp only [if_neg h, List.find?_cons, decide_eq_false h]
      exact ih

theorem foldl_add_get (t : Table) (rs : List Rune) (acc : F64) :
    rs.foldl (fun score char => F64.add score (t.get char)) acc
      = (rs.map t.valueOr0).foldl F64.add acc := by
  induction rs generalizing acc with
  | nil => rfl
  | cons r rest ih =>
    simp only [List.foldl_cons, List.map_cons]
    rw [ih, Table.get_eq_valueOr0]

/-- C8: `scoreEnglish(text, table)` is the `float64` sum, accumulated from 0 over the
characters of `text` in order, of the table's value for each character, a character
absent from the table contributing 0, divided in `float64` by the number of
characters of `text`. -/
theorem scoreEnglish_eq_sum_div (text : List Byte) (table : Table) :
    scoreEnglish text table
      = F64.div (F64.sum ((runes text).map table.valueOr0))
          (F64.ofInt ((runes text).length : ℕ)) := by
  unfold scoreEnglish F64.sum
  rw [foldl_add_get]
  rfl


/-! ## Lemmas on map reads and writes -/

namespace Table

theorem contains_iff (t : Table) (r : Rune) : t.contains r = true ↔ r ∈ t.keys := by
  induction t with
  | nil => simp [contains, keys]
  | cons kv rest ih =>
    obtain ⟨k, v⟩ := kv
    simp only [contains, keys, List.map_cons, List.mem_cons, Bool.or_eq_true,
      decide_eq_true_eq]
    rw [ih]
    simp only [keys]
    constructor
    · rintro (h | h)
      · exact Or.inl h.symm
      · exact Or.inr h
    · rintro (h | h)
      · exact Or.inl h.symm
      · exact Or.inr h

theorem get_set_self (t : Table) (r : Rune) (v : F64) : (t.set r v).get r = v := by
  induction t with
  | nil => simp [set, get]
  | cons kv rest ih =>
    obtain ⟨k, w⟩ := kv
    unfold set
    by_cases h : k = r
    · simp [h, get]
    · simp only [if_neg h, get]
      exact ih

theorem get_set_ne (t : Table) {r r2 : Rune} (v : F64) (h : r2 ≠ r) :
    (t.set r v).get r2 = t.get r2 := by
  induction t with
  | nil =>
    simp only [set, get]
    rw [if_neg (fun hh => h hh.symm)]
  | cons kv rest ih =>
    obtain ⟨k, w⟩ := kv
    unfold set
    by_cases hk : k = r
    · rw [if_pos hk]
      simp only [get]
      rw [if_neg (by rw [hk]; exact fun hh => h hh.symm),
        if_neg (by rw [hk]; exact fun hh => h hh.symm)]
    · rw [if_neg hk]
      simp only [get]
      rw [ih]

theorem keys_set_of_mem (t : Table) {r : Rune} (v : F64) (h : r ∈ t.keys) :
    (t.set r v).keys = t.keys := by
  induction t with
  | nil => simp [keys] at h
  | cons kv rest ih =>
    obtain ⟨k, w⟩ := kv
    unfold set
    by_cases hk : k = r
    · rw [if_pos hk]; rfl
    · rw [if_neg hk]
      have h2 : r ∈ keys rest := by
        simp only [keys, List.map_cons, List.mem_cons] at h
        rcases h with h | h
        · exact absurd h.symm hk
        · exact h
      simp only [keys, List.map_cons] at ih ⊢
      rw [ih h2]

theorem keys_set_of_not_mem (t : Table) {r : Rune} (v : F64) (h : r ∉ t.keys) :
    (t.set r v).keys = t.keys ++ [r] := by
  induction t with
  | nil => rfl
  | cons kv rest ih =>
    obtain ⟨k, w⟩ := kv
    simp only [keys, List.map_cons, List.mem_cons, not_or] at h
    unfold set
    rw [if_neg (fun hh => h.1 hh.symm)]
    simp only [keys, List.map_cons, List.cons_append] at ih ⊢
    rw [ih h.2]

/-- A write to the key of an entry that no earlier entry has replaces that entry. -/
theorem set_append_of_not_mem (a b : Table) (k : Rune) (w v : F64) (h : k ∉ a.keys) :
    set (a ++ (k, w) :: b) k v = a ++ (k, v) :: b := by
  induction a with
  | nil => simp [set]
  | cons kv rest ih =>
    obtain ⟨k2, w2⟩ := kv
    simp only [keys, List.map_cons, List.mem_cons, not_or] at h
    rw [List.cons_append, List.cons_append]
    unfold set
    rw [if_neg (fun hh => h.1 hh.symm)]
    simp only [keys] at ih
    rw [ih h.2]

end Table


/-- Incrementing an exact count below `2^53` is exact. -/
theorem add_one_exact {n : Nat} (h : n + 1 < 2 ^ 53) :
    F64.add (F64.fin (n : ℕ)) (F64.fin 1) = F64.fin ((n + 1 : ℕ) : ℚ) := by
  have := F64.round_intCast ((n + 1 : ℕ) : ℤ)
    (by rw [abs_of_nonneg (by positivity)]; exact_mod_cast h)
  simp only [F64.add]
  have e : ((n : ℕ) : ℚ) + 1 = ((((n + 1 : ℕ) : ℤ)) : ℚ) := by push_cast; ring
  rw [e, this]
  push_cast; rfl

/-- The first loop of `buildCorpus`: after the runes `pre ++ rs` the keys of the map
are the distinct runes seen and each value is the exact count of its key. -/
theorem count_loop (rs : List Rune) :
    ∀ (pre : List Rune) (c : Table), pre.length + rs.length < 2 ^ 53 →
      c.keys.Nodup → (∀ r, r ∈ c.keys ↔ r ∈ pre) →
      (∀ r, c.get r = F64.fin ((pre.count r : ℕ) : ℚ)) →
      (rs.foldl (fun c char => c.set char (F64.add (c.get char) (F64.fin 1))) c).keys.Nodup ∧
      (∀ r, r ∈ (rs.foldl (fun c char =>
          c.set char (F64.add (c.get char) (F64.fin 1))) c).keys ↔ r ∈ pre ++ rs) ∧
      (∀ r, (rs.foldl (fun c char => c.set char (F64.add (c.get char) (F64.fin 1))) c).get r
          = F64.fin (((pre ++ rs).count r : ℕ) : ℚ)) := by
  induction rs with
  | nil =>
    intro pre c _ hnd hk hv
    simpa using ⟨hnd, hk, hv⟩
  | cons a rest ih =>
    intro pre c hlen hnd hk hv
    simp only [List.foldl_cons]
    have hcount : pre.count a + 1 < 2 ^ 53 := by
      have := List.count_le_length (a := a) (l := pre)
      simp only [List.length_cons] at hlen
      omega
    rw [hv a, add_one_exact hcount]
    have e : pre ++ a :: rest = (pre ++ [a]) ++ rest := by simp
    rw [e]
    apply ih (pre ++ [a])
    · simp only [List.length_append, List.length_cons, List.length_nil] at hlen ⊢
      omega
    · by_cases hmem : a ∈ c.keys
      · rw [Table.keys_set_of_mem c _ hmem]; exact hnd
      · rw [Table.keys_set_of_not_mem c _ hmem]
        exact List.Nodup.append hnd (List.nodup_singleton a) (by simpa using hmem)
    · intro r
      by_cases hmem : a ∈ c.keys
      · rw [Table.keys_set_of_mem c _ hmem, hk r]
        have := (hk a).mp hmem
        simp only [List.mem_append, List.mem_singleton]
        constructor
        · exact Or.inl
        · rintro (h | h)
          · exact h
          · rw [h]; exact this
      · rw [Table.keys_set_of_not_mem c _ hmem]
        simp only [List.mem_append, List.mem_singleton, hk r]
    · intro r
      by_cases hr : r = a
      · subst hr
        rw [Table.get_set_self]
        simp [List.count_append]
      · rw [Table.get_set_ne c _ hr, hv r]
        simp [List.count_append, List.count_cons, hr]

/-- The second loop of `buildCorpus`: every value of a map with distinct keys is
replaced by its image. -/
theorem normalize_loop (f : F64 → F64) (post : Table) :
    ∀ pre : Table, (pre ++ post).keys.Nodup →
      post.foldl (fun (c : Table) (kv : Rune × F64) => Table.set c kv.1 (f kv.2))
          (pre.map (fun kv => (kv.1, f kv.2)) ++ post)
        = (pre ++ post).map (fun kv => (kv.1, f kv.2)) := by
  induction post with
  | nil => intro pre _; simp
  | cons kv rest ih =>
    intro pre hnd
    obtain ⟨k, v⟩ := kv
    simp only [List.foldl_cons]
    have hk : k ∉ Table.keys (pre.map (fun kv => (kv.1, f kv.2))) := by
      simp only [Table.keys, List.map_append, List.map_cons, List.map_map] at hnd ⊢
      have hdis := (List.nodup_append.mp hnd).2.2
      intro hmem
      exact hdis (by simpa using hmem) (List.mem_cons_self _ _)
    rw [Table.set_append_of_not_mem _ _ _ _ _ hk]
    have e : pre.map (fun kv => (kv.1, f kv.2)) ++ (k, f v) :: rest
        = (pre ++ [(k, v)]).map (fun kv => (kv.1, f kv.2)) ++ rest := by simp
    rw [e, ih (pre ++ [(k, v)]) (by simpa using hnd)]
    simp



/-! ## The values of buildCorpus -/

theorem F64.roundQ_intCast (n : ℤ) (hn : |n| < 2 ^ 53) : F64.roundQ (n : ℚ) = n := by
  have h := F64.round_intCast n hn
  rw [F64.round_def] at h
  split_ifs at h
  exact F64.fin.inj h

/-- A ratio `c / T` of counts with `1 ≤ c ≤ T` rounds to a finite value within
`2^-54` of it. -/
theorem round_ratio {c T : Nat} (hc : 1 ≤ c) (hcT : c ≤ T) :
    F64.round ((c : ℚ) / (T : ℚ)) = F64.fin (F64.roundQ ((c : ℚ) / (T : ℚ))) ∧
    |F64.roundQ ((c : ℚ) / (T : ℚ)) - (c : ℚ) / (T : ℚ)| ≤ (2 : ℚ) ^ (-54 : ℤ) := by
  have hT : (0 : ℚ) < (T : ℚ) := by exact_mod_cast (by omega : 0 < T)
  have hq0 : (0 : ℚ) < (c : ℚ) / (T : ℚ) := div_pos (by exact_mod_cast hc) hT
  have hq1 : (c : ℚ) / (T : ℚ) ≤ 1 := by
    rw [div_le_one hT]; exact_mod_cast hcT
  have hfin : ∀ {q : ℚ}, |F64.roundQ q - q| ≤ (2 : ℚ) ^ (-54 : ℤ) → 0 < q → q ≤ 1 →
      F64.round q = F64.fin (F64.roundQ q) := by
    intro q herr h0 h1
    rw [F64.round_def, if_neg]
    rw [not_le]
    have h54 : (2 : ℚ) ^ (-54 : ℤ) ≤ 1 := by
      rw [zpow_neg]; exact inv_le_one_of_one_le₀ (by norm_num)
    have hr : |F64.roundQ q| ≤ 2 := by
      rw [abs_le] at herr ⊢
      constructor <;> linarith [herr.1, herr.2]
    calc |F64.roundQ q| ≤ 2 := hr
      _ < (2 : ℚ) ^ (1024 : ℕ) := by norm_num
  have herr : |F64.roundQ ((c : ℚ) / (T : ℚ)) - (c : ℚ) / (T : ℚ)| ≤ (2 : ℚ) ^ (-54 : ℤ) := by
    rcases Nat.eq_or_lt_of_le hcT with h | h
    · subst h
      rw [div_self hT.ne']
      have := F64.roundQ_intCast 1 (by norm_num)
      simp only [Int.cast_one] at this
      rw [this]; simp; positivity
    · have hlt : |(c : ℚ) / (T : ℚ)| < (2 : ℚ) ^ ((-1 : ℤ) + 1) := by
        rw [abs_of_pos hq0]
        simp only [neg_add_cancel, zpow_zero]
        rw [div_lt_one hT]; exact_mod_cast h
      have := F64.abs_roundQ_sub_le_zpow (by norm_num) hlt
      have e : ((-1 : ℤ) - 53) = -54 := by norm_num
      rwa [e] at this
  exact ⟨hfin herr hq0 hq1, herr⟩

theorem Table.keys_map (t : Table) (f : F64 → F64) :
    Table.keys (t.map (fun kv => (kv.1, f kv.2))) = t.keys := by
  simp [Table.keys, List.map_map, Function.comp_def]

theorem Table.get_map_of_mem (t : Table) (f : F64 → F64) {r : Rune} (h : r ∈ t.keys) :
    Table.get (t.map (fun kv => (kv.1, f kv.2))) r = f (t.get r) := by
  induction t with
  | nil => simp [Table.keys] at h
  | cons kv rest ih =>
    obtain ⟨k, v⟩ := kv
    simp only [List.map_cons, Table.get]
    by_cases hk : k = r
    · rw [if_pos hk, if_pos hk]
    · rw [if_neg hk, if_neg hk]
      apply ih
      simp only [Table.keys, List.map_cons, List.mem_cons] at h
      rcases h with h | h
      · exact absurd h.symm hk
      · exact h

theorem Table.get_of_mem (t : Table) (hnd : t.keys.Nodup) {k : Rune} {v : F64}
    (h : (k, v) ∈ t) : t.get k = v := by
  induction t with
  | nil => simp at h
  | cons kv rest ih =>
    obtain ⟨k0, v0⟩ := kv
    simp only [Table.keys, List.map_cons, List.nodup_cons] at hnd
    simp only [Table.get]
    rcases List.mem_cons.mp h with h | h
    · have h1 : k = k0 := congrArg Prod.fst h
      have h2 : v = v0 := congrArg Prod.snd h
      rw [if_pos h1.symm, h2]
    · have hk : k0 ≠ k := by
        intro e
        apply hnd.1
        rw [e]
        exact List.mem_map_of_mem Prod.fst h
      rw [if_neg hk]
      exact ih hnd.2 h

theorem abs_sum_sub_sum_le {α : Type} (l : List α) (a b : α → ℚ) (e : ℚ)
    (h : ∀ x ∈ l, |a x - b x| ≤ e) :
    |(l.map a).sum - (l.map b).sum| ≤ (l.length : ℚ) * e := by
  induction l with
  | nil => simp
  | cons x rest ih =>
    simp only [List.map_cons, List.sum_cons, List.length_cons]
    have h1 := h x (List.mem_cons_self _ _)
    have h2 := ih (fun y hy => h y (List.mem_cons_of_mem _ hy))
    have e1 : a x + (rest.map a).sum - (b x + (rest.map b).sum)
        = (a x - b x) + ((rest.map a).sum - (rest.map b).sum) := by ring
    rw [e1]
    push_cast
    calc |(a x - b x) + ((rest.map a).sum - (rest.map b).sum)|
        ≤ |a x - b x| + |(rest.map a).sum - (rest.map b).sum| := abs_add _ _
      _ ≤ e + (rest.length : ℚ) * e := add_le_add h1 h2
      _ = ((rest.length : ℚ) + 1) * e := by ring

/-- The counts of the distinct runes of a list add up to its length. -/
theorem sum_count_keys (rs keys : List Rune) (hnd : keys.Nodup)
    (hk : ∀ r, r ∈ keys ↔ r ∈ rs) : (keys.map (fun r => rs.count r)).sum = rs.length := by
  have hperm : keys.Perm rs.dedup :=
    (List.perm_ext_iff_of_nodup hnd (List.nodup_dedup rs)).mpr (fun r => by simp [hk])
  rw [(hperm.map _).sum_eq]
  exact List.sum_map_count_dedup_eq_length rs



/-- The table of `buildCorpus` for a text of fewer than `2^53` bytes: the map of
exact counts, with distinct keys, each value divided by the number of runes. -/
theorem buildCorpus_eq_map (text : List Byte) (hlen : text.length < 2 ^ 53) :
    ∃ c1 : Table, c1.keys.Nodup ∧ (∀ r, r ∈ c1.keys ↔ r ∈ runes text) ∧
      (∀ r, c1.get r = F64.fin (((runes text).count r : ℕ) : ℚ)) ∧
      buildCorpus text = c1.map (fun kv =>
        (kv.1, F64.div kv.2 (F64.ofInt ((runes text).length : ℕ)))) := by
  have hl := runes_length_le text
  obtain ⟨h1, h2, h3⟩ := count_loop (runes text) [] []
    (by simp only [List.length_nil]; omega) (by simp [Table.keys]) (by simp [Table.keys])
    (by intro r; simp [Table.get, F64.zero])
  simp only [List.nil_append] at h2 h3
  refine ⟨_, h1, h2, h3, ?_⟩
  have hn := normalize_loop (fun v => F64.div v (F64.ofInt ((runes text).length : ℕ)))
    ((runes text).foldl (fun c char => c.set char (F64.add (c.get char) (F64.fin 1))) [])
    [] (by simpa using h1)
  simp only [List.map_nil, List.nil_append] at hn
  exact hn

theorem sum_map_div_natCast (l : List Rune) (f : Rune → ℕ) (T : ℚ) :
    (l.map (fun r => ((f r : ℕ) : ℚ) / T)).sum = (((l.map f).sum : ℕ) : ℚ) / T := by
  induction l with
  | nil => simp
  | cons x rest ih =>
    simp only [List.map_cons, List.sum_cons, ih]
    push_cast; ring



/-- C9 (amended): for a non-empty text of fewer than `2^53` bytes the table of
`buildCorpus` has exactly the characters of the text as keys, each once; the value of
a character is the `float64` quotient of its number of occurrences by the number of
characters, a finite value within `2^-54` of the exact ratio; every value is
non-negative; and the values sum to 1 up to that rounding: their exact sum differs
from 1 by at most `2^-54` for each entry. -/
theorem buildCorpus_frequencies (text : List Byte) (hne : text ≠ [])
    (hlen : text.length < 2 ^ 53) :
    (∀ r, (buildCorpus text).contains r = true ↔ r ∈ runes text) ∧
    (buildCorpus text).keys.Nodup ∧
    (∀ r ∈ runes text,
      (buildCorpus text).get r
        = F64.div (F64.ofInt ((runes text).count r : ℕ)) (F64.ofInt ((runes text).length : ℕ)) ∧
      ∃ q : ℚ, (buildCorpus text).get r = F64.fin q ∧
        |q - ((runes text).count r : ℚ) / ((runes text).length : ℚ)| ≤ (2 : ℚ) ^ (-54 : ℤ)) ∧
    (∀ kv ∈ buildCorpus text, F64.le F64.zero kv.2 = true) ∧
    |(buildCorpus text).valueSum - 1|
      ≤ ((buildCorpus text).length : ℚ) * (2 : ℚ) ^ (-54 : ℤ) := by
  obtain ⟨c1, hnd, hkeys, hval, hmap⟩ := buildCorpus_eq_map text hlen
  have hl := runes_length_le text
  have hpos := runes_length_pos hne
  generalize hrs : runes text = rs at *
  -- the total and the counts are exact in float64
  have hT : F64.ofInt ((rs.length : ℕ) : ℤ) = F64.fin ((rs.length : ℕ) : ℚ) := by
    have := F64.round_intCast ((rs.length : ℕ) : ℤ)
      (by rw [abs_of_nonneg (by positivity)]; exact_mod_cast (by omega : rs.length < 2 ^ 53))
    simpa [F64.ofInt] using this
  have hC : ∀ r, F64.ofInt ((rs.count r : ℕ) : ℤ) = F64.fin ((rs.count r : ℕ) : ℚ) := by
    intro r
    have hc := List.count_le_length (a := r) (l := rs)
    have := F64.round_intCast ((rs.count r : ℕ) : ℤ)
      (by rw [abs_of_nonneg (by positivity)]; exact_mod_cast (by omega : rs.count r < 2 ^ 53))
    simpa [F64.ofInt] using this
  have hT0 : ((rs.length : ℕ) : ℚ) ≠ 0 := by
    have : (0 : ℚ) < ((rs.length : ℕ) : ℚ) := by exact_mod_cast hpos
    exact this.ne'
  -- the value stored for a key
  have hdiv : ∀ r, r ∈ rs →
      F64.div (F64.fin ((rs.count r : ℕ) : ℚ)) (F64.ofInt ((rs.length : ℕ) : ℤ))
        = F64.fin (F64.roundQ ((rs.count r : ℚ) / (rs.length : ℚ))) ∧
      |F64.roundQ ((rs.count r : ℚ) / (rs.length : ℚ)) - (rs.count r : ℚ) / (rs.length : ℚ)|
        ≤ (2 : ℚ) ^ (-54 : ℤ) := by
    intro r hr
    have hc1 : 1 ≤ rs.count r := List.count_pos_iff.mpr hr
    have hc2 := List.count_le_length (a := r) (l := rs)
    obtain ⟨e1, e2⟩ := round_ratio hc1 hc2
    rw [hT]
    simp only [F64.div, if_neg hT0]
    exact ⟨e1, e2⟩
  have hget : ∀ r, r ∈ rs → (buildCorpus text).get r
      = F64.div (F64.fin ((rs.count r : ℕ) : ℚ)) (F64.ofInt ((rs.length : ℕ) : ℤ)) := by
    intro r hr
    rw [hmap, Table.get_map_of_mem c1 (fun v => F64.div v (F64.ofInt ((rs.length : ℕ) : ℤ)))
      ((hkeys r).mpr hr), hval r]
  refine ⟨?_, ?_, ?_, ?_, ?_⟩
  · intro r
    rw [Table.contains_iff, hmap,
      Table.keys_map c1 (fun v => F64.div v (F64.ofInt ((rs.length : ℕ) : ℤ))), hkeys r]
  · rw [hmap, Table.keys_map c1 (fun v => F64.div v (F64.ofInt ((rs.length : ℕ) : ℤ)))]
    exact hnd
  · intro r hr
    refine ⟨by rw [hget r hr, hC r], ?_⟩
    exact ⟨_, (hget r hr).trans (hdiv r hr).1, (hdiv r hr).2⟩
  · intro kv hkv
    rw [hmap] at hkv
    obtain ⟨⟨k, v⟩, hmem, rfl⟩ := List.mem_map.mp hkv
    have hk : k ∈ rs := (hkeys k).mp (List.mem_map_of_mem Prod.fst hmem)
    have hv : v = F64.fin ((rs.count k : ℕ) : ℚ) := by
      rw [← Table.get_of_mem c1 hnd hmem, hval k]
    simp only
    rw [hv, (hdiv k hk).1]
    have h0 : (0 : ℚ) ≤ (rs.count k : ℚ) / (rs.length : ℚ) := by positivity
    have := F64.le_zero_round h0
    rw [← (hdiv k hk).1, hT] at *
    simpa [F64.div, hT0] using this
  · have hsum : (buildCorpus text).valueSum
        = (c1.map (fun kv => F64.roundQ ((rs.count kv.1 : ℚ) / (rs.length : ℚ)))).sum := by
      rw [hmap]
      unfold Table.valueSum
      rw [List.map_map]
      congr 1
      apply List.map_congr_left
      intro kv hkv
      obtain ⟨k, v⟩ := kv
      have hk : k ∈ rs := (hkeys k).mp (List.mem_map_of_mem Prod.fst hkv)
      have hv : v = F64.fin ((rs.count k : ℕ) : ℚ) := by
        rw [← Table.get_of_mem c1 hnd hkv, hval k]
      simp only [Function.comp_apply]
      rw [hv, (hdiv k hk).1]
      rfl
    have hone : (c1.map (fun kv => (rs.count kv.1 : ℚ) / (rs.length : ℚ))).sum = 1 := by
      have e : c1.map (fun kv => (rs.count kv.1 : ℚ) / (rs.length : ℚ))
          = c1.keys.map (fun r => ((rs.count r : ℕ) : ℚ) / (rs.length : ℚ)) := by
        simp [Table.keys, List.map_map, Function.comp_def]
      rw [e, sum_map_div_natCast, sum_count_keys rs c1.keys hnd hkeys]
      exact div_self hT0
    have hlen2 : (buildCorpus text).length = c1.length := by rw [hmap]; simp
    rw [hsum, ← hone, hlen2]
    apply abs_sum_sub_sum_le
    intro kv hkv
    obtain ⟨k, v⟩ := kv
    have hk : k ∈ rs := (hkeys k).mp (List.mem_map_of_mem Prod.fst hkv)
    exact (hdiv k hk).2



/-! ## Certificates for single roundings, and the text `abcdef` -/

theorem roundNE_of_near {x : ℚ} {n : ℤ} (h : |x - n| < 1 / 2) : roundNE x = n := by
  rw [abs_lt] at h
  have h1 : (⌊x⌋ : ℚ) ≤ x := Int.floor_le x
  have h2 : x < ⌊x⌋ + 1 := Int.lt_floor_add_one x
  have hcases : ⌊x⌋ = n ∨ ⌊x⌋ = n - 1 := by
    have a : (n : ℚ) - 1 < (⌊x⌋ : ℚ) + 1 := by linarith [h.1]
    have b : (⌊x⌋ : ℚ) < (n : ℚ) + 1 := by linarith [h.2]
    have a2 : n - 1 < ⌊x⌋ + 1 := by exact_mod_cast a
    have b2 : ⌊x⌋ < n + 1 := by exact_mod_cast b
    omega
  unfold roundNE
  rcases hcases with hf | hf
  · rw [hf]
    rw [if_pos (by linarith [h.2])]
  · rw [hf]
    push_cast
    rw [if_neg (by linarith [h.1]), if_pos (by linarith [h.1])]
    ring

theorem roundNE_of_tie {x : ℚ} {f : ℤ} (h : x = (f : ℚ) + 1 / 2) :
    roundNE x = if f % 2 = 0 then f else f + 1 := by
  have hf : ⌊x⌋ = f := by
    rw [Int.floor_eq_iff]
    constructor <;> rw [h] <;> linarith
  unfold roundNE
  rw [hf, h]
  rw [if_neg (by norm_num), if_neg (by norm_num)]

theorem F64.expOf_eq {q : ℚ} {e : ℤ} (he : -1022 ≤ e) (h1 : (2 : ℚ) ^ e ≤ |q|)
    (h2 : |q| < (2 : ℚ) ^ (e + 1)) : F64.expOf q = e := by
  have hpos : 0 < |q| := lt_of_lt_of_le (by positivity) h1
  have a : e ≤ Int.log 2 |q| :=
    (Int.zpow_le_iff_le_log (b := 2) (by norm_num) hpos).mp (by exact_mod_cast h1)
  have b : Int.log 2 |q| < e + 1 :=
    (Int.lt_zpow_iff_log_lt (b := 2) (by norm_num) hpos).mp (by exact_mod_cast h2)
  unfold F64.expOf
  rw [max_eq_left (by omega)]
  omega

/-- A certificate for a rounding: the exponent `e` of `q` and the integer `n`
nearest to `q / 2^(e-52)`. -/
theorem F64.round_of_near {q : ℚ} (e n : ℤ) (he : -1022 ≤ e) (h1 : (2 : ℚ) ^ e ≤ |q|)
    (h2 : |q| < (2 : ℚ) ^ (e + 1)) (hn : |q / (2 : ℚ) ^ (e - 52) - n| < 1 / 2)
    (hfin : |(n : ℚ) * (2 : ℚ) ^ (e - 52)| < (2 : ℚ) ^ (1024 : ℕ)) :
    F64.round q = F64.fin ((n : ℚ) * (2 : ℚ) ^ (e - 52)) := by
  have hq : F64.roundQ q = (n : ℚ) * (2 : ℚ) ^ (e - 52) := by
    unfold F64.roundQ F64.ulp
    rw [F64.expOf_eq he h1 h2, roundNE_of_near hn]
  rw [F64.round_def, hq, if_neg (not_le.mpr hfin)]

/-- A certificate for a rounding at a tie: `q / 2^(e-52)` is `f + 1/2`. -/
theorem F64.round_of_tie {q : ℚ} (e f : ℤ) (he : -1022 ≤ e) (h1 : (2 : ℚ) ^ e ≤ |q|)
    (h2 : |q| < (2 : ℚ) ^ (e + 1)) (hn : q / (2 : ℚ) ^ (e - 52) = (f : ℚ) + 1 / 2)
    (hfin : |(((if f % 2 = 0 then f else f + 1 : ℤ)) : ℚ) * (2 : ℚ) ^ (e - 52)|
      < (2 : ℚ) ^ (1024 : ℕ)) :
    F64.round q
      = F64.fin ((((if f % 2 = 0 then f else f + 1 : ℤ)) : ℚ) * (2 : ℚ) ^ (e - 52)) := by
  have hq : F64.roundQ q
      = (((if f % 2 = 0 then f else f + 1 : ℤ)) : ℚ) * (2 : ℚ) ^ (e - 52) := by
    unfold F64.roundQ F64.ulp
    rw [F64.expOf_eq he h1 h2, roundNE_of_tie hn]
  rw [F64.round_def, hq, if_neg (not_le.mpr hfin)]



theorem runes_abcdef : runes [0x61, 0x62, 0x63, 0x64, 0x65, 0x66] = [97, 98, 99, 100, 101, 102] := by
  decide

theorem round_one : F64.round 1 = F64.fin 1 := by
  simpa using F64.round_intCast 1 (by norm_num)

theorem ofInt_six : F64.ofInt 6 = F64.fin 6 := by
  simpa [F64.ofInt] using F64.round_intCast 6 (by norm_num)

theorem round_sixth : F64.round (1 / 6) = F64.fin (6004799503160661 / 2 ^ 55) := by
  have := F64.round_of_near (q := 1 / 6) (-3) 6004799503160661 (by norm_num)
    (by norm_num [abs_of_pos]) (by norm_num [abs_of_pos]) (by norm_num [abs_of_pos])
    (by norm_num [abs_of_pos])
  rw [this]; norm_num

/-- The table of `buildCorpus` for the text `abcdef`. -/
theorem buildCorpus_abcdef :
    buildCorpus [0x61, 0x62, 0x63, 0x64, 0x65, 0x66]
      = [(97, F64.fin (6004799503160661 / 2 ^ 55)), (98, F64.fin (6004799503160661 / 2 ^ 55)),
         (99, F64.fin (6004799503160661 / 2 ^ 55)), (100, F64.fin (6004799503160661 / 2 ^ 55)),
         (101, F64.fin (6004799503160661 / 2 ^ 55)),
         (102, F64.fin (6004799503160661 / 2 ^ 55))] := by
  have hadd : F64.add F64.zero (F64.fin 1) = F64.fin 1 := by
    simp [F64.add, F64.zero, round_one]
  have hdiv : F64.div (F64.fin 1) (F64.ofInt 6) = F64.fin (6004799503160661 / 2 ^ 55) := by
    rw [ofInt_six]
    simp only [F64.div]
    rw [if_neg (by norm_num), round_sixth]
  unfold buildCorpus
  rw [runes_abcdef]
  simp [Table.set, Table.get, hadd, hdiv]



theorem add_sixth_1 :
    F64.add (F64.fin 0) (F64.fin (6004799503160661 / 2 ^ 55))
      = F64.fin (6004799503160661 / 2 ^ 55) := by
  simp only [F64.add]
  have := F64.round_of_near (q := 0 + 6004799503160661 / 2 ^ 55) (-3) 6004799503160661
    (by norm_num) (by norm_num [abs_of_pos]) (by norm_num [abs_of_pos])
    (by norm_num [abs_of_pos]) (by norm_num [abs_of_pos])
  rw [this]; norm_num

theorem add_sixth_2 :
    F64.add (F64.fin (6004799503160661 / 2 ^ 55)) (F64.fin (6004799503160661 / 2 ^ 55))
      = F64.fin (6004799503160661 / 2 ^ 54) := by
  simp only [F64.add]
  have := F64.round_of_near (q := 6004799503160661 / 2 ^ 55 + 6004799503160661 / 2 ^ 55)
    (-2) 6004799503160661
    (by norm_num) (by norm_num [abs_of_pos]) (by norm_num [abs_of_pos])
    (by norm_num [abs_of_pos]) (by norm_num [abs_of_pos])
  rw [this]; norm_num

theorem add_sixth_3 :
    F64.add (F64.fin (6004799503160661 / 2 ^ 54)) (F64.fin (6004799503160661 / 2 ^ 55))
      = F64.fin (1 / 2) := by
  simp only [F64.add]
  have := F64.round_of_tie (q := 6004799503160661 / 2 ^ 54 + 6004799503160661 / 2 ^ 55)
    (-2) 9007199254740991
    (by norm_num) (by norm_num [abs_of_pos]) (by norm_num [abs_of_pos])
    (by norm_num) (by norm_num [abs_of_pos])
  rw [this]; norm_num

theorem add_sixth_4 :
    F64.add (F64.fin (1 / 2)) (F64.fin (6004799503160661 / 2 ^ 55))
      = F64.fin (6004799503160661 / 2 ^ 53) := by
  simp only [F64.add]
  have := F64.round_of_near (q := 1 / 2 + 6004799503160661 / 2 ^ 55)
    (-1) 6004799503160661
    (by norm_num) (by norm_num [abs_of_pos]) (by norm_num [abs_of_pos])
    (by norm_num [abs_lt]) (by norm_num [abs_of_pos])
  rw [this]; norm_num

theorem add_sixth_5 :
    F64.add (F64.fin (6004799503160661 / 2 ^ 53)) (F64.fin (6004799503160661 / 2 ^ 55))
      = F64.fin (7505999378950826 / 2 ^ 53) := by
  simp only [F64.add]
  have := F64.round_of_near (q := 6004799503160661 / 2 ^ 53 + 6004799503160661 / 2 ^ 55)
    (-1) 7505999378950826
    (by norm_num) (by norm_num [abs_of_pos]) (by norm_num [abs_of_pos])
    (by norm_num [abs_lt]) (by norm_num [abs_of_pos])
  rw [this]; norm_num

theorem add_sixth_6 :
    F64.add (F64.fin (7505999378950826 / 2 ^ 53)) (F64.fin (6004799503160661 / 2 ^ 55))
      = F64.fin (9007199254740991 / 2 ^ 53) := by
  simp only [F64.add]
  have := F64.round_of_near (q := 7505999378950826 / 2 ^ 53 + 6004799503160661 / 2 ^ 55)
    (-1) 9007199254740991
    (by norm_num) (by norm_num [abs_of_pos]) (by norm_num [abs_of_pos])
    (by norm_num [abs_lt]) (by norm_num [abs_of_pos])
  rw [this]; norm_num

/-- C9 (counterexample): on the text `abcdef` the six values of the table of
`buildCorpus`, each the `float64` nearest to 1/6, do not sum to 1.0: their exact sum
is `1 - 2^-54` and their `float64` sum is `1 - 2^-53` (0.9999999999999999). -/
theorem buildCorpus_sum_ne_one :
    (buildCorpus [0x61, 0x62, 0x63, 0x64, 0x65, 0x66]).valueSum = 1 - 1 / 2 ^ 54 ∧
    (buildCorpus [0x61, 0x62, 0x63, 0x64, 0x65, 0x66]).floatSum
      = F64.fin (1 - 1 / 2 ^ 53) ∧
    (buildCorpus [0x61, 0x62, 0x63, 0x64, 0x65, 0x66]).valueSum ≠ 1 ∧
    (buildCorpus [0x61, 0x62, 0x63, 0x64, 0x65, 0x66]).floatSum ≠ F64.fin 1 := by
  have h1 : (buildCorpus [0x61, 0x62, 0x63, 0x64, 0x65, 0x66]).valueSum = 1 - 1 / 2 ^ 54 := by
    rw [buildCorpus_abcdef]
    simp only [Table.valueSum, List.map_cons, List.map_nil, F64.toRat, List.sum_cons,
      List.sum_nil]
    norm_num
  have h2 : (buildCorpus [0x61, 0x62, 0x63, 0x64, 0x65, 0x66]).floatSum
      = F64.fin (1 - 1 / 2 ^ 53) := by
    rw [buildCorpus_abcdef]
    simp only [Table.floatSum, F64.sum, List.map_cons, List.map_nil, List.foldl_cons,
      List.foldl_nil]
    rw [add_sixth_1, add_sixth_2, add_sixth_3, add_sixth_4, add_sixth_5, add_sixth_6]
    norm_num
  refine ⟨h1, h2, ?_, ?_⟩
  · rw [h1]; norm_num
  · rw [h2]
    intro h
    have := F64.fin.inj h
    norm_num at this



/-- Witness of the amended C9 on the text `ab`. -/
theorem buildCorpus_frequencies_witness :
    |(buildCorpus [0x61, 0x62]).valueSum - 1|
      ≤ ((buildCorpus [0x61, 0x62]).length : ℚ) * (2 : ℚ) ^ (-54 : ℤ) :=
  (buildCorpus_frequencies [0x61, 0x62] (by simp) (by simp)).2.2.2.2

theorem Table.set_ne_nil (t : Table) (r : Rune) (v : F64) : t.set r v ≠ [] := by
  cases t with
  | nil => simp [Table.set]
  | cons kv rest =>
    obtain ⟨k, w⟩ := kv
    unfold Table.set
    split_ifs <;> simp

theorem foldl_set_ne_nil {α : Type} (l : List α) (key : Table → α → Rune)
    (val : Table → α → F64) (c : Table) (hc : c ≠ []) :
    l.foldl (fun c x => Table.set c (key c x) (val c x)) c ≠ [] := by
  induction l generalizing c with
  | nil => simpa using hc
  | cons x rest ih =>
    simp only [List.foldl_cons]
    exact ih _ (Table.set_ne_nil _ _ _)

/-! ## buildCorpus on the empty text -/

/-- C10 (counterexample): on the empty text `buildCorpus` does not fail; it returns
the empty table. -/
theorem buildCorpus_empty_text : buildCorpus [] = [] := by
  simp [buildCorpus, runes, runesAux]

/-- C10 (amended): `buildCorpus` returns a table for every text, and the table is
empty exactly when the text is empty. -/
theorem buildCorpus_eq_nil_iff (text : List Byte) : buildCorpus text = [] ↔ text = [] := by
  constructor
  · intro h
    by_contra hne
    have hpos := runes_length_pos hne
    have h1 : (runes text).foldl
        (fun c char => Table.set c char (F64.add (Table.get c char) (F64.fin 1))) [] ≠ [] := by
      cases hrs : runes text with
      | nil => rw [hrs] at hpos; simp at hpos
      | cons r rest =>
        simp only [List.foldl_cons]
        exact foldl_set_ne_nil rest (fun _ char => char)
          (fun c char => F64.add (Table.get c char) (F64.fin 1)) _ (Table.set_ne_nil _ _ _)
    have h2 := foldl_set_ne_nil
      ((runes text).foldl
        (fun c char => Table.set c char (F64.add (Table.get c char) (F64.fin 1))) [])
      (fun _ kv => kv.1) (fun _ kv => F64.div kv.2 (F64.ofInt ((runes text).length : ℕ))) _ h1
    exact h2 h
  · intro h
    subst h
    simp [buildCorpus, runes, runesAux]


/-! ## XOR of bytes: singleXOR, repeatingXOR, fixedXOR -/


theorem byte_xor_val (a b : Byte) : (a ^^^ b).val = a.val ^^^ b.val := by
  show (a.val ^^^ b.val) % 256 = a.val ^^^ b.val
  exact Nat.mod_eq_of_lt (Nat.xor_lt_two_pow (n := 8) a.isLt b.isLt)

theorem byte_xor_comm (a b : Byte) : a ^^^ b = b ^^^ a := by
  apply Fin.ext
  rw [byte_xor_val, byte_xor_val, Nat.xor_comm]

theorem byte_xor_assoc (a b c : Byte) : (a ^^^ b) ^^^ c = a ^^^ (b ^^^ c) := by
  apply Fin.ext
  simp only [byte_xor_val, Nat.xor_assoc]

theorem byte_xor_cancel_right (a k : Byte) : (a ^^^ k) ^^^ k = a := by
  apply Fin.ext
  simp only [byte_xor_val, Nat.xor_cancel_right]

theorem byte_xor_eq_zero {a b : Byte} : a ^^^ b = 0 ↔ a = b := by
  constructor
  · intro h
    apply Fin.ext
    have := congrArg Fin.val h
    rw [byte_xor_val] at this
    exact Nat.xor_eq_zero.mp this
  · intro h
    apply Fin.ext
    rw [byte_xor_val, h, Nat.xor_self]
    rfl

/-- The counter of `repeatingXOR` after one more byte. -/
theorem succ_mod_eq (o L : Nat) (hL : 0 < L) :
    (if o % L + 1 ≥ L then 0 else o % L + 1) = (o + 1) % L := by
  have hr := Nat.mod_lt o hL
  have e2 : (o + 1) % L = (o % L + 1 % L) % L := Nat.add_mod o 1 L
  rcases Nat.lt_or_ge 1 L with h1 | h1
  · rw [Nat.mod_eq_of_lt h1] at e2
    split_ifs with h
    · have e : o % L + 1 = L := by omega
      rw [e2, e, Nat.mod_self]
    · rw [e2]
      exact (Nat.mod_eq_of_lt (by omega : o % L + 1 < L)).symm
  · have hL1 : L = 1 := by omega
    subst hL1
    simp [Nat.mod_one]

/-- The loop of `repeatingXOR` with a non-empty key, started when `o` bytes have been
consumed: byte `i` of the rest is XORed with the key byte at `(o + i) mod len(key)`. -/
theorem repeatingXORLoop_eq (key : List Byte) (hkey : key ≠ []) (inp : List Byte) :
    ∀ o : Nat, repeatingXORLoop key inp (o % key.length)
      = some ((inp.enumFrom o).map (fun p => p.2 ^^^ key.getD (p.1 % key.length) 0)) := by
  have hL : 0 < key.length := List.length_pos.mpr hkey
  induction inp with
  | nil => intro o; rfl
  | cons c rest ih =>
    intro o
    have hr := Nat.mod_lt o hL
    unfold repeatingXORLoop
    rw [List.get?_eq_getElem?, List.getElem?_eq_getElem hr]
    simp only
    rw [succ_mod_eq o key.length hL, ih (o + 1)]
    simp only [List.enumFrom_cons, List.map_cons]
    rw [List.getD_eq_getElem _ _ hr]

/-- With a non-empty key `repeatingXOR` does not panic; its result has the length of
the input, and its byte at index `i` is the input byte XORed with the key byte at
`i mod len(key)`. -/
theorem repeatingXOR_spec (inp key : List Byte) (hkey : key ≠ []) :
    ∃ out : List Byte, repeatingXOR inp key = some out ∧ out.length = inp.length ∧
      ∀ i, out[i]? = inp[i]?.map (fun c => c ^^^ key.getD (i % key.length) 0) := by
  have h := repeatingXORLoop_eq key hkey inp 0
  rw [Nat.zero_mod] at h
  refine ⟨_, h, by simp, ?_⟩
  intro i
  rw [List.getElem?_map, List.getElem?_enumFrom]
  cases inp[i]? <;> simp



/-- C14: XORing a byte sequence twice with the same key byte gives it back. -/
theorem singleXOR_singleXOR (p : List Byte) (k : Byte) :
    singleXOR (singleXOR p k) k = p := by
  unfold singleXOR
  rw [List.map_map]
  have h : ((fun c : Byte => c ^^^ k) ∘ fun c : Byte => c ^^^ k) = id := by
    funext c
    exact byte_xor_cancel_right c k
  rw [h, List.map_id]

/-- C12: with a key of length at least 1, `repeatingXOR` applied twice with the same
key gives the byte sequence back (neither call panics). -/
theorem repeatingXOR_repeatingXOR (p key : List Byte) (hkey : 1 ≤ key.length) :
    ∃ c : List Byte, repeatingXOR p key = some c ∧ repeatingXOR c key = some p := by
  have hne : key ≠ [] := List.length_pos.mp hkey
  obtain ⟨c, hc, hclen, hcget⟩ := repeatingXOR_spec p key hne
  obtain ⟨d, hd, hdlen, hdget⟩ := repeatingXOR_spec c key hne
  refine ⟨c, hc, ?_⟩
  rw [hd]
  congr 1
  apply List.ext_getElem?
  intro i
  rw [hdget i, hcget i]
  cases p[i]? with
  | none => rfl
  | some x => simp [byte_xor_cancel_right]

/-- Witness of C12 on two bytes with a one-byte key. -/
theorem repeatingXOR_repeatingXOR_witness :
    ∃ c : List Byte, repeatingXOR [0x42, 0x75] [0x49] = some c ∧
      repeatingXOR c [0x49] = some [0x42, 0x75] :=
  repeatingXOR_repeatingXOR [0x42, 0x75] [0x49] (by decide)

set_option maxRecDepth 100000 in
/-- C13: with a non-empty key `repeatingXOR` returns a byte sequence of the length of
its input whose byte at every index `i` is the input byte XORed with the key byte at
index `i mod len(key)`; and it encrypts the text
`Burning 'em, if you ain't quick and nimble\nI go crazy when I hear a cymbal` under
the key `ICE` to the bytes of the fixture of `TestChallenge5`. -/
theorem repeatingXOR_bytes :
    (∀ inp key : List Byte, key ≠ [] →
      ∃ out : List Byte, repeatingXOR inp key = some out ∧ out.length = inp.length ∧
        ∀ (i : Nat) (c kb : Byte), inp[i]? = some c → key[i % key.length]? = some kb →
          out[i]? = some (c ^^^ kb)) ∧
    repeatingXOR
        [0x42, 0x75, 0x72, 0x6e, 0x69, 0x6e, 0x67, 0x20, 0x27, 0x65, 0x6d, 0x2c, 0x20,
         0x69, 0x66, 0x20, 0x79, 0x6f, 0x75, 0x20, 0x61, 0x69, 0x6e, 0x27, 0x74, 0x20,
         0x71, 0x75, 0x69, 0x63, 0x6b, 0x20, 0x61, 0x6e, 0x64, 0x20, 0x6e, 0x69, 0x6d,
         0x62, 0x6c, 0x65, 0x0a, 0x49, 0x20, 0x67, 0x6f, 0x20, 0x63, 0x72, 0x61, 0x7a,
         0x79, 0x20, 0x77, 0x68, 0x65, 0x6e, 0x20, 0x49, 0x20, 0x68, 0x65, 0x61, 0x72,
         0x20, 0x61, 0x20, 0x63, 0x79, 0x6d, 0x62, 0x61, 0x6c]
        [0x49, 0x43, 0x45]
      = some
        [0x0b, 0x36, 0x37, 0x27, 0x2a, 0x2b, 0x2e, 0x63, 0x62, 0x2c, 0x2e, 0x69, 0x69,
         0x2a, 0x23, 0x69, 0x3a, 0x2a, 0x3c, 0x63, 0x24, 0x20, 0x2d, 0x62, 0x3d, 0x63,
         0x34, 0x3c, 0x2a, 0x26, 0x22, 0x63, 0x24, 0x27, 0x27, 0x65, 0x27, 0x2a, 0x28,
         0x2b, 0x2f, 0x20, 0x43, 0x0a, 0x65, 0x2e, 0x2c, 0x65, 0x2a, 0x31, 0x24, 0x33,
         0x3a, 0x65, 0x3e, 0x2b, 0x20, 0x27, 0x63, 0x0c, 0x69, 0x2b, 0x20, 0x28, 0x31,
         0x65, 0x28, 0x63, 0x26, 0x30, 0x2e, 0x27, 0x28, 0x2f] := by
  refine ⟨?_, by decide⟩
  intro inp key hkey
  obtain ⟨out, hout, hlen, hget⟩ := repeatingXOR_spec inp key hkey
  refine ⟨out, hout, hlen, ?_⟩
  intro i c kb hc hkb
  rw [hget i, hc]
  have hL : 0 < key.length := List.length_pos.mpr hkey
  have hr := Nat.mod_lt i hL
  rw [List.getElem?_eq_getElem hr] at hkb
  rw [List.getD_eq_getElem _ _ hr, Option.some.inj hkb]
  rfl

/-- Witness of C13 on the bytes `Bu` with the key `ICE`. -/
theorem repeatingXOR_bytes_witness :
    ∃ out : List Byte, repeatingXOR [0x42, 0x75] [0x49, 0x43, 0x45] = some out ∧
      out.length = ([0x42, 0x75] : List Byte).length :=
  (repeatingXOR_bytes.1 [0x42, 0x75] [0x49, 0x43, 0x45] (by decide)).imp
    (fun _ h => ⟨h.1, h.2.1⟩)

set_option maxRecDepth 100000 in
/-- C17: `fixedXOR` panics exactly when the lengths of its arguments differ; on
buffers of equal length it returns a buffer of that length whose byte at every index
is the XOR of the bytes of the arguments at that index; and it maps the two buffers
of `TestChallenge2` to the expected buffer. -/
theorem fixedXOR_bytes :
    (∀ a b : List Byte, fixedXOR a b = none ↔ a.length ≠ b.length) ∧
    (∀ a b : List Byte, a.length = b.length →
      ∃ out : List Byte, fixedXOR a b = some out ∧ out.length = a.length ∧
        ∀ (i : Nat) (x y : Byte), a[i]? = some x → b[i]? = some y →
          out[i]? = some (x ^^^ y)) ∧
    fixedXOR
        [0x1c, 0x01, 0x11, 0x00, 0x1f, 0x01, 0x01, 0x00, 0x06, 0x1a, 0x02, 0x4b, 0x53,
         0x53, 0x50, 0x09, 0x18, 0x1c]
        [0x68, 0x69, 0x74, 0x20, 0x74, 0x68, 0x65, 0x20, 0x62, 0x75, 0x6c, 0x6c, 0x27,
         0x73, 0x20, 0x65, 0x79, 0x65]
      = some
        [0x74, 0x68, 0x65, 0x20, 0x6b, 0x69, 0x64, 0x20, 0x64, 0x6f, 0x6e, 0x27, 0x74,
         0x20, 0x70, 0x6c, 0x61, 0x79] := by
  refine ⟨?_, ?_, by decide⟩
  · intro a b
    unfold fixedXOR
    split_ifs with h
    · simp [h]
    · simp only [ne_eq, not_not] at h
      simp [h]
  · intro a b hab
    unfold fixedXOR
    rw [if_neg (by simpa using hab)]
    refine ⟨_, rfl, by simp [hab], ?_⟩
    intro i x y hx hy
    rw [List.getElem?_zipWith, hx, hy]

/-- Witness of C17 on two one-byte buffers. -/
theorem fixedXOR_bytes_witness :
    ∃ out : List Byte, fixedXOR [0x1c] [0x68] = some out ∧
      out.length = ([0x1c] : List Byte).length :=
  (fixedXOR_bytes.2.1 [0x1c] [0x68] rfl).imp (fun _ h => ⟨h.1, h.2.1⟩)


/-! ## hammingDistance -/


theorem foldl_add_eq_sum {α : Type} (f : α → Nat) (l : List α) (acc : Nat) :
    l.foldl (fun res p => res + f p) acc = acc + (l.map f).sum := by
  induction l generalizing acc with
  | nil => simp
  | cons x rest ih =>
    simp only [List.foldl_cons, List.map_cons, List.sum_cons, ih]
    omega

theorem bitDistance_eq_sum (a b : List Byte) :
    bitDistance a b = ((a.zip b).map (fun p => onesCount8 (p.1 ^^^ p.2))).sum := by
  unfold bitDistance
  rw [foldl_add_eq_sum (fun p : Byte × Byte => onesCount8 (p.1 ^^^ p.2))]
  simp

theorem bitDistance_nil_left (b : List Byte) : bitDistance [] b = 0 := by
  simp [bitDistance]

theorem bitDistance_cons (x y : Byte) (a b : List Byte) :
    bitDistance (x :: a) (y :: b) = onesCount8 (x ^^^ y) + bitDistance a b := by
  simp [bitDistance_eq_sum]

set_option maxRecDepth 100000 in
theorem onesCount8_eq_zero : ∀ x : Byte, onesCount8 x = 0 ↔ x = 0 := by
  decide

theorem bitDistance_comm (a b : List Byte) : bitDistance a b = bitDistance b a := by
  induction a generalizing b with
  | nil => cases b <;> simp [bitDistance]
  | cons x a ih =>
    cases b with
    | nil => simp [bitDistance]
    | cons y b => rw [bitDistance_cons, bitDistance_cons, ih b, byte_xor_comm]

theorem bitDistance_eq_zero_iff (a b : List Byte) (h : a.length = b.length) :
    bitDistance a b = 0 ↔ a = b := by
  induction a generalizing b with
  | nil =>
    cases b with
    | nil => simp [bitDistance]
    | cons y b => simp at h
  | cons x a ih =>
    cases b with
    | nil => simp at h
    | cons y b =>
      simp only [List.length_cons, Nat.add_right_cancel_iff] at h
      rw [bitDistance_cons, Nat.add_eq_zero_iff, onesCount8_eq_zero, byte_xor_eq_zero, ih b h]
      simp



theorem length_filter_range_eq_card (n : Nat) (p : Nat → Bool) :
    ((List.range n).filter p).length
      = ((Finset.range n).filter (fun j => p j = true)).card := by
  induction n with
  | zero => simp
  | succ n ih =>
    rw [List.range_succ, List.filter_append, List.length_append, ih, Finset.range_succ,
      Finset.filter_insert]
    by_cases h : p n = true
    · rw [if_pos h, Finset.card_insert_of_not_mem (by simp)]
      simp [h]
    · rw [if_neg h]
      simp [h]

theorem sum_map_range_eq_sum (n : Nat) (f : Nat → Nat) :
    ((List.range n).map f).sum = ∑ i in Finset.range n, f i := by
  induction n with
  | zero => simp
  | succ n ih =>
    rw [List.range_succ, List.map_append, List.sum_append, ih, Finset.sum_range_succ]
    simp

/-- The one bits of `x XOR y` are the positions at which `x` and `y` differ. -/
theorem onesCount8_xor (x y : Byte) :
    onesCount8 (x ^^^ y)
      = ((Finset.range 8).filter (fun j => x.val.testBit j ≠ y.val.testBit j)).card := by
  unfold onesCount8
  rw [length_filter_range_eq_card, byte_xor_val]
  congr 1
  apply Finset.filter_congr
  intro j _
  rw [Nat.testBit_xor]
  cases x.val.testBit j <;> cases y.val.testBit j <;> simp

theorem sum_zip_eq_sum_range (g : Byte → Byte → Nat) (a : List Byte) :
    ∀ b : List Byte, a.length = b.length →
      ((a.zip b).map (fun p => g p.1 p.2)).sum
        = ∑ i in Finset.range a.length, g (a.getD i 0) (b.getD i 0) := by
  induction a with
  | nil => intro b _; simp
  | cons x a ih =>
    intro b h
    cases b with
    | nil => simp at h
    | cons y b =>
      simp only [List.length_cons, Nat.add_right_cancel_iff] at h
      simp only [List.zip_cons_cons, List.map_cons, List.sum_cons, List.length_cons]
      rw [Finset.sum_range_succ', ih b h]
      simp [Nat.add_comm]

/-- On slices of equal length the loop of `hammingDistance` counts the differing
bits. -/
theorem bitDistance_eq_differingBits (a b : List Byte) (h : a.length = b.length) :
    bitDistance a b = differingBits a b := by
  rw [bitDistance_eq_sum, sum_zip_eq_sum_range (fun x y => onesCount8 (x ^^^ y)) a b h]
  unfold differingBits
  rw [Finset.card_filter, Finset.sum_product]
  apply Finset.sum_congr rfl
  intro i _
  rw [onesCount8_xor, Finset.card_filter]



/-- C15: on byte sequences of equal length `hammingDistance` is symmetric, and it is
zero exactly when the two sequences are identical. -/
theorem hammingDistance_symm_zero (a b : List Byte) (h : a.length = b.length) :
    hammingDistance a b = hammingDistance b a ∧
    (hammingDistance a b = some 0 ↔ a = b) := by
  unfold hammingDistance
  rw [if_neg (by simpa using h), if_neg (by simpa using h.symm)]
  refine ⟨by rw [bitDistance_comm], ?_⟩
  rw [Option.some.injEq]
  exact bitDistance_eq_zero_iff a b h

/-- Witness of C15 on two one-byte sequences. -/
theorem hammingDistance_symm_zero_witness :
    hammingDistance [0x74] [0x77] = hammingDistance [0x77] [0x74] ∧
    (hammingDistance [0x74] [0x77] = some 0 ↔ ([0x74] : List Byte) = [0x77]) :=
  hammingDistance_symm_zero [0x74] [0x77] rfl

set_option maxRecDepth 100000 in
/-- C16: on byte sequences of equal length `hammingDistance` returns the number of
pairs `(i, j)`, `i < len(a)`, `j < 8`, such that bit `j` of `a[i]` differs from bit
`j` of `b[i]`; it panics when the lengths differ; and the distance between
`this is a test` and `wokka wokka!!!` is 37. -/
theorem hammingDistance_differingBits :
    (∀ a b : List Byte, a.length = b.length →
      hammingDistance a b = some (differingBits a b)) ∧
    (∀ a b : List Byte, a.length ≠ b.length → hammingDistance a b = none) ∧
    hammingDistance
        [0x74, 0x68, 0x69, 0x73, 0x20, 0x69, 0x73, 0x20, 0x61, 0x20, 0x74, 0x65, 0x73,
         0x74]
        [0x77, 0x6f, 0x6b, 0x6b, 0x61, 0x20, 0x77, 0x6f, 0x6b, 0x6b, 0x61, 0x21, 0x21,
         0x21]
      = some 37 := by
  refine ⟨?_, ?_, by decide⟩
  · intro a b h
    unfold hammingDistance
    rw [if_neg (by simpa using h), bitDistance_eq_differingBits a b h]
  · intro a b h
    unfold hammingDistance
    rw [if_pos h]

/-- Witness of C16 on two one-byte sequences. -/
theorem hammingDistance_differingBits_witness :
    hammingDistance [0x74] [0x77] = some (differingBits [0x74] [0x77]) :=
  hammingDistance_differingBits.1 [0x74] [0x77] rfl

theorem bitDistance_congr (a b c d : List Byte) (hab : a.length = b.length)
    (hcd : c.length = d.length) (hac : a.length = c.length)
    (h : ∀ i, i < a.length → a.getD i 0 ^^^ b.getD i 0 = c.getD i 0 ^^^ d.getD i 0) :
    bitDistance a b = bitDistance c d := by
  rw [bitDistance_eq_sum, bitDistance_eq_sum,
    sum_zip_eq_sum_range (fun x y => onesCount8 (x ^^^ y)) a b hab,
    sum_zip_eq_sum_range (fun x y => onesCount8 (x ^^^ y)) c d hcd, ← hac]
  apply Finset.sum_congr rfl
  intro i hi
  rw [h i (Finset.mem_range.mp hi)]

theorem byte_xor_xor_same (x y t : Byte) : (x ^^^ t) ^^^ (y ^^^ t) = x ^^^ y := by
  rw [byte_xor_assoc, byte_xor_comm y t, ← byte_xor_assoc t t y]
  have : t ^^^ t = 0 := byte_xor_eq_zero.mpr rfl
  rw [this]
  have h0 : (0 : Byte) ^^^ y = y := by
    apply Fin.ext
    rw [byte_xor_val]
    simp
  rw [h0]

/-- C18: for a non-empty key of length `L`, a candidate length `k` with `L` dividing
`4k`, and a plaintext `p` of at least `8k` bytes, the ciphertext `c` of `p` under
`repeatingXOR` has the same Hamming distance between `c[0:4k]` and `c[4k:8k]` as `p`
has between `p[0:4k]` and `p[4k:8k]`. -/
theorem repeatingXOR_preserves_distance (p key : List Byte) (k : Nat) (hkey : key ≠ [])
    (hdvd : key.length ∣ 4 * k) (hlen : 8 * k ≤ p.length) :
    ∃ (c : List Byte) (d : Nat), repeatingXOR p key = some c ∧
      hammingDistance (c.take (4 * k)) ((c.drop (4 * k)).take (4 * k)) = some d ∧
      hammingDistance (p.take (4 * k)) ((p.drop (4 * k)).take (4 * k)) = some d := by
  obtain ⟨c, hc, hclen, hcget⟩ := repeatingXOR_spec p key hkey
  have hl1 : ∀ s : List Byte, 8 * k ≤ s.length →
      (s.take (4 * k)).length = ((s.drop (4 * k)).take (4 * k)).length := by
    intro s hs
    simp only [List.length_take, List.length_drop]; omega
  have hl2 : ∀ s : List Byte, 8 * k ≤ s.length → (s.take (4 * k)).length = 4 * k := by
    intro s hs
    simp only [List.length_take]; omega
  have hget1 : ∀ (s : List Byte) (i : Nat), i < 4 * k →
      (s.take (4 * k)).getD i 0 = s.getD i 0 := by
    intro s i hi
    simp only [List.getD_eq_getElem?_getD, List.getElem?_take, if_pos hi]
  have hget2 : ∀ (s : List Byte) (i : Nat), i < 4 * k →
      ((s.drop (4 * k)).take (4 * k)).getD i 0 = s.getD (4 * k + i) 0 := by
    intro s i hi
    simp only [List.getD_eq_getElem?_getD, List.getElem?_take, if_pos hi, List.getElem?_drop]
  have hcD : ∀ i, i < p.length →
      c.getD i 0 = p.getD i 0 ^^^ key.getD (i % key.length) 0 := by
    intro i hi
    simp only [List.getD_eq_getElem?_getD, hcget i, List.getElem?_eq_getElem hi,
      Option.map_some', Option.getD_some]
  refine ⟨c, bitDistance (p.take (4 * k)) ((p.drop (4 * k)).take (4 * k)), hc, ?_, ?_⟩
  · unfold hammingDistance
    rw [if_neg (by simpa using hl1 c (by omega))]
    congr 1
    apply bitDistance_congr _ _ _ _ (hl1 c (by omega)) (hl1 p hlen)
      ((hl2 c (by omega)).trans (hl2 p hlen).symm)
    intro i hi
    rw [hl2 c (by omega)] at hi
    rw [hget1 c i hi, hget2 c i hi, hget1 p i hi, hget2 p i hi, hcD i (by omega),
      hcD (4 * k + i) (by omega)]
    obtain ⟨q, hq⟩ := hdvd
    have hmod : (4 * k + i) % key.length = i % key.length := by
      rw [hq, Nat.mul_add_mod]
    rw [hmod, byte_xor_xor_same]
  · unfold hammingDistance
    rw [if_neg (by simpa using hl1 p hlen)]

/-- Witness of C18 on eight bytes with a two-byte key and `k = 1`. -/
theorem repeatingXOR_preserves_distance_witness :
    ∃ (c : List Byte) (d : Nat),
      repeatingXOR [1, 2, 3, 4, 5, 6, 7, 8] [0x49, 0x43] = some c ∧
      hammingDistance (c.take (4 * 1)) ((c.drop (4 * 1)).take (4 * 1)) = some d ∧
      hammingDistance (([1, 2, 3, 4, 5, 6, 7, 8] : List Byte).take (4 * 1))
        ((([1, 2, 3, 4, 5, 6, 7, 8] : List Byte).drop (4 * 1)).take (4 * 1)) = some d :=
  repeatingXOR_preserves_distance [1, 2, 3, 4, 5, 6, 7, 8] [0x49, 0x43] 1 (by decide)
    (by decide) (by decide)


/-! ## findRepeatingXORKeySize and the first 320 bytes -/


/-- The score of a candidate up to 40 reads only the first 320 bytes, whatever the
spare capacity. -/
theorem keySizeScore_take (inp spare sp : List Byte) (hlen : 320 ≤ inp.length) (k : Nat)
    (hk : k ≤ 40) : keySizeScore (inp.take 320) sp k = keySizeScore inp spare k := by
  have hl : (inp.take 320).length = 320 := by simp only [List.length_take]; omega
  rw [keySizeScore_some sp (by omega : 8 * k ≤ (inp.take 320).length),
    keySizeScore_some spare (by omega : 8 * k ≤ inp.length)]
  have e1 : (inp.take 320).take (4 * k) = inp.take (4 * k) := by
    rw [List.take_take, Nat.min_eq_left (by omega)]
  have e2 : ((inp.take 320).drop (4 * k)).take (4 * k) = (inp.drop (4 * k)).take (4 * k) := by
    rw [List.drop_take, List.take_take, Nat.min_eq_left (by omega)]
  rw [e1, e2]

theorem foldlM_keySizeStep_congr (a sa b sb : List Byte) (l : List Nat)
    (h : ∀ k ∈ l, keySizeScore a sa k = keySizeScore b sb k) (st : KeySizeState) :
    l.foldlM (keySizeStep a sa) st = l.foldlM (keySizeStep b sb) st := by
  induction l generalizing st with
  | nil => rfl
  | cons x rest ih =>
    simp only [List.foldlM_cons]
    have hx : keySizeStep a sa st x = keySizeStep b sb st x := by
      unfold keySizeStep
      rw [h x (List.mem_cons_self _ _)]
    rw [hx]
    cases keySizeStep b sb st x with
    | none => rfl
    | some st2 => exact ih (fun k hk => h k (List.mem_cons_of_mem _ hk)) st2

theorem findRepeatingXORKeySize_take (inp spare sp : List Byte) (hlen : 320 ≤ inp.length) :
    findRepeatingXORKeySize (inp.take 320) sp = findRepeatingXORKeySize inp spare := by
  unfold findRepeatingXORKeySize
  rw [foldlM_keySizeStep_congr (inp.take 320) sp inp spare (List.range' 2 39)
    (fun k hk => keySizeScore_take inp spare sp hlen k (by
      simp only [List.mem_range'_1] at hk; omega))]

/-- C19: two ciphertexts of at least 320 bytes that agree on their first 320 bytes
get the same key length from `findRepeatingXORKeySize`, which is the key length of
the first 320 bytes alone, whatever the spare capacity of each of the three slices. -/
theorem findRepeatingXORKeySize_first_320 (a b sa sb sp : List Byte) (ha : 320 ≤ a.length)
    (hb : 320 ≤ b.length) (h : a.take 320 = b.take 320) :
    ∃ k : Nat, findRepeatingXORKeySize a sa = some k ∧
      findRepeatingXORKeySize b sb = some k ∧
      findRepeatingXORKeySize (a.take 320) sp = some k := by
  obtain ⟨st, hfold, _⟩ := keySizeLoop_inv a sa ha 39 (by omega) (Nat.le_refl 39)
  have hka : findRepeatingXORKeySize a sa = some st.res := by
    unfold findRepeatingXORKeySize; rw [hfold]
  refine ⟨st.res, hka, ?_, ?_⟩
  · rw [← findRepeatingXORKeySize_take b sb sp hb, ← h,
      findRepeatingXORKeySize_take a sa sp ha, hka]
  · rw [findRepeatingXORKeySize_take a sa sp ha, hka]

set_option maxRecDepth 100000 in
/-- Witness of C19 on 320 zero bytes followed by one byte or another, with spare
capacities of one, zero and two bytes. -/
theorem findRepeatingXORKeySize_first_320_witness :
    ∃ k : Nat, findRepeatingXORKeySize (List.replicate 320 0 ++ [1]) [5] = some k ∧
      findRepeatingXORKeySize (List.replicate 320 0 ++ [2]) [] = some k ∧
      findRepeatingXORKeySize ((List.replicate 320 0 ++ [1]).take 320) [1, 5] = some k :=
  findRepeatingXORKeySize_first_320 (List.replicate 320 0 ++ [1])
    (List.replicate 320 0 ++ [2]) [5] [] [1, 5]
    (by rw [List.length_append, List.length_replicate]; exact Nat.le_add_right 320 _)
    (by rw [List.length_append, List.length_replicate]; exact Nat.le_add_right 320 _)
    (by
      rw [List.take_append_of_le_length (le_of_eq (List.length_replicate 320 (0 : Byte)).symm),
        List.take_append_of_le_length (le_of_eq (List.length_replicate 320 (0 : Byte)).symm)])


/-! ## scoreEnglish on the empty text -/

/-- C11 (counterexample): on the empty text, with a table of one entry,
`scoreEnglish` returns NaN, the `float64` value of `0.0 / 0.0`; it does not fail. -/
theorem scoreEnglish_empty_text_nan :
    scoreEnglish [] [(0x61, F64.fin (1 / 2))] = F64.nan := by
  simp [scoreEnglish, runes, runesAux, F64.ofInt, F64.round_zero, F64.zero, F64.div]

/-- C11 (amended): for every table `scoreEnglish` does not reject the empty text: it
returns NaN, the `float64` value of `0.0 / 0.0`. -/
theorem scoreEnglish_nil (table : Table) : scoreEnglish [] table = F64.nan := by
  simp [scoreEnglish, runes, runesAux, F64.ofInt, F64.round_zero, F64.zero, F64.div]


/-! ## findSingleByteXOR on a re-encrypted input -/


theorem singleXOR_singleXOR_key (inp : List Byte) (k j : Byte) :
    singleXOR (singleXOR inp k) j = singleXOR inp (k ^^^ j) := by
  unfold singleXOR
  rw [List.map_map]
  apply List.map_congr_left
  intro c _
  exact byte_xor_assoc c k j

theorem byte_xor_xor_cancel (k m : Byte) : k ^^^ (m ^^^ k) = m := by
  rw [byte_xor_comm k, byte_xor_cancel_right]

/-- The loop of `findSingleByteXOR` when the key `m` scores above zero and strictly
above every other key: the variables end as the candidate `m`. -/
theorem singleLoop_of_strict_max (inp : List Byte) (t : Table) (m : Byte)
    (hpos : F64.lt F64.zero (scoreEnglish (singleXOR inp m) t) = true)
    (hmax : ∀ j : Byte, j ≠ m →
      F64.lt (scoreEnglish (singleXOR inp j) t) (scoreEnglish (singleXOR inp m) t) = true)
    (n : Nat) (hn : n ≤ 256) :
    (n ≤ m.val → F64.lt (singleLoop inp t n).bestScore
        (scoreEnglish (singleXOR inp m) t) = true) ∧
    (m.val < n → singleLoop inp t n
        = ⟨singleXOR inp m, scoreEnglish (singleXOR inp m) t, m⟩) := by
  induction n with
  | zero =>
    refine ⟨fun _ => ?_, fun h => absurd h (Nat.not_lt_zero _)⟩
    simpa [singleLoop] using hpos
  | succ n ih =>
    obtain ⟨ih1, ih2⟩ := ih (by omega)
    rw [singleLoop_succ]
    have hkv : (byteOfNat n).val = n := byteOfNat_val_of_lt (by omega)
    rcases Nat.lt_trichotomy n m.val with h | h | h
    · have hne : byteOfNat n ≠ m := fun e => by rw [e] at hkv; omega
      refine ⟨fun _ => ?_, fun h2 => by omega⟩
      unfold singleStep
      simp only
      split_ifs
      · exact hmax _ hne
      · exact ih1 (by omega)
    · have hm : byteOfNat n = m := Fin.ext (by rw [hkv, h])
      refine ⟨fun h2 => by omega, fun _ => ?_⟩
      unfold singleStep
      simp only
      rw [hm, if_pos (ih1 (by omega))]
    · have hne : byteOfNat n ≠ m := fun e => by rw [e] at hkv; omega
      refine ⟨fun h2 => by omega, fun _ => ?_⟩
      rw [ih2 h]
      unfold singleStep
      simp only
      rw [if_neg]
      rw [F64.lt_false_of_le (F64.le_of_lt_true (hmax _ hne))]
      simp

/-- The result of `findSingleByteXOR` when the key `m` scores above zero and
strictly above every other key. -/
theorem findSingleByteXOR_of_strict_max (inp : List Byte) (t : Table) (m : Byte)
    (hpos : F64.lt F64.zero (scoreEnglish (singleXOR inp m) t) = true)
    (hmax : ∀ j : Byte, j ≠ m →
      F64.lt (scoreEnglish (singleXOR inp j) t) (scoreEnglish (singleXOR inp m) t) = true) :
    findSingleByteXOR inp t = (m, singleXOR inp m, scoreEnglish (singleXOR inp m) t) := by
  have h := (singleLoop_of_strict_max inp t m hpos hmax 256 (Nat.le_refl 256)).2 m.isLt
  simp only [findSingleByteXOR, h]

/-- C20: if exactly one key `m` attains the highest score on `inp`, that is, `m`
scores strictly above every other key, and that score is greater than 0, then on
`inp` re-encrypted with any byte `k` `findSingleByteXOR` returns the key `m XOR k`
with the same plaintext and the same score that it returns on `inp`: the plaintext
`singleXOR(inp, m)` and its score. -/
theorem findSingleByteXOR_reencrypted (inp : List Byte) (table : Table) (k m : Byte)
    (hpos : F64.lt F64.zero (scoreEnglish (singleXOR inp m) table) = true)
    (hmax : ∀ j : Byte, j ≠ m →
      F64.lt (scoreEnglish (singleXOR inp j) table)
        (scoreEnglish (singleXOR inp m) table) = true) :
    findSingleByteXOR (singleXOR inp k) table
      = (m ^^^ k, (findSingleByteXOR inp table).2.1, (findSingleByteXOR inp table).2.2) ∧
    findSingleByteXOR inp table
      = (m, singleXOR inp m, scoreEnglish (singleXOR inp m) table) := by
  have h0 := findSingleByteXOR_of_strict_max inp table m hpos hmax
  have hm : singleXOR (singleXOR inp k) (m ^^^ k) = singleXOR inp m := by
    rw [singleXOR_singleXOR_key, byte_xor_xor_cancel]
  have h1 := findSingleByteXOR_of_strict_max (singleXOR inp k) table (m ^^^ k)
    (by rw [hm]; exact hpos)
    (by
      intro j hj
      rw [hm, singleXOR_singleXOR_key]
      apply hmax
      intro e
      apply hj
      rw [← e, byte_xor_comm (k ^^^ j) k, ← byte_xor_assoc, byte_xor_comm k k]
      have : k ^^^ k = 0 := byte_xor_eq_zero.mpr rfl
      rw [this]
      apply Fin.ext
      rw [byte_xor_val]
      simp)
  rw [hm] at h1
  exact ⟨by rw [h1, h0], h0⟩



set_option maxRecDepth 100000 in
theorem runes_singleton :
    ∀ b : Byte, runes [b] = [if b.val < 0x80 then b.val else 0xFFFD] := by
  decide

set_option maxRecDepth 100000 in
theorem xor_0x41_eq_0x61 : ∀ j : Byte, (0x41 : Byte) ^^^ j = 0x61 ↔ j = 0x20 := by
  decide

/-- The score of a one-byte text with the table `a ↦ 1`. -/
theorem scoreEnglish_singleton (b : Byte) :
    scoreEnglish [b] [(0x61, F64.fin 1)] = if b = 0x61 then F64.fin 1 else F64.fin 0 := by
  have hone : F64.ofInt ((1 : ℕ) : ℤ) = F64.fin 1 := by
    simpa [F64.ofInt] using F64.round_intCast 1 (by norm_num)
  have h1 : F64.round 1 = F64.fin 1 := by
    simpa using F64.round_intCast 1 (by norm_num)
  have h0 : F64.round 0 = F64.fin 0 := F64.round_zero
  unfold scoreEnglish
  rw [runes_singleton b]
  simp only [List.foldl_cons, List.foldl_nil, List.length_singleton, hone]
  by_cases hb : b = 0x61
  · subst hb
    have hv : (if (0x61 : Byte).val < 0x80 then (0x61 : Byte).val else 0xFFFD) = 0x61 := by
      decide
    rw [hv]
    simp [Table.get, F64.add, F64.div, F64.zero, h1]
  · rw [if_neg hb]
    have hget : Table.get [(0x61, F64.fin 1)] (if b.val < 0x80 then b.val else 0xFFFD)
        = F64.zero := by
      simp only [Table.get]
      rw [if_neg]
      intro e
      apply hb
      apply Fin.ext
      split_ifs at e with h
      · exact e.symm
      · norm_num at e
    rw [hget]
    simp [F64.add, F64.div, F64.zero, h0]

/-- Witness of C20 on the one-byte ciphertext `0x41` with the table `a ↦ 1`: the key
`0x20` alone scores above zero; the ciphertext is re-encrypted with `0x07`. -/
theorem findSingleByteXOR_reencrypted_witness :
    findSingleByteXOR (singleXOR [0x41] 0x07) [(0x61, F64.fin 1)]
      = (0x20 ^^^ 0x07, (findSingleByteXOR [0x41] [(0x61, F64.fin 1)]).2.1,
          (findSingleByteXOR [0x41] [(0x61, F64.fin 1)]).2.2) :=
  (findSingleByteXOR_reencrypted [0x41] [(0x61, F64.fin 1)] 0x07 0x20
    (by
      have e : singleXOR [0x41] 0x20 = [0x61] := by decide
      rw [e, scoreEnglish_singleton]
      simp [F64.lt, F64.zero])
    (by
      intro j hj
      have e : singleXOR [0x41] 0x20 = [0x61] := by decide
      have ej : singleXOR [0x41] j = [(0x41 : Byte) ^^^ j] := rfl
      rw [e, ej, scoreEnglish_singleton, scoreEnglish_singleton,
        if_neg (fun h => hj ((xor_0x41_eq_0x61 j).mp h))]
      simp [F64.lt])).1


/-! ## findRepeatingXORKeySize and the capacity of the ciphertext -/

/-- The loop of `findRepeatingXORKeySize` sees a slice and its spare capacity as one
backing array: the result is that on the slice extended to its capacity. -/
theorem findRepeatingXORKeySize_append (inp spare : List Byte) :
    findRepeatingXORKeySize inp spare = findRepeatingXORKeySize (inp ++ spare) [] := by
  unfold findRepeatingXORKeySize
  rw [foldlM_keySizeStep_congr inp spare (inp ++ spare) [] (List.range' 2 39)
    (fun k _ => keySizeScore_append inp spare k)]

/-- On a ciphertext whose capacity is at least 320 bytes `findRepeatingXORKeySize`
returns a length between 2 and 40. -/
theorem findRepeatingXORKeySize_some_of_cap (inp spare : List Byte)
    (h : 320 ≤ inp.length + spare.length) :
    ∃ k : Nat, findRepeatingXORKeySize inp spare = some k ∧ 2 ≤ k ∧ k ≤ 40 := by
  obtain ⟨st, hfold, h2, h40, _⟩ := keySizeLoop_inv (inp ++ spare) []
    (by rw [List.length_append]; exact h) 39 (by omega) (Nat.le_refl 39)
  refine ⟨st.res, ?_, h2, h40⟩
  rw [findRepeatingXORKeySize_append]
  unfold findRepeatingXORKeySize
  rw [hfold]

/-- On a ciphertext whose capacity is below 320 bytes the slice expression of the
candidate 40 panics, and so does `findRepeatingXORKeySize`. -/
theorem findRepeatingXORKeySize_none_of_cap (inp spare : List Byte)
    (h : inp.length + spare.length < 320) : findRepeatingXORKeySize inp spare = none := by
  unfold findRepeatingXORKeySize
  rw [foldlM_keySizeStep_none inp spare (List.range' 2 39)
    ⟨40, by simp [List.mem_range'_1], keySizeScore_none (by omega)⟩]

/-- C4 (amended): `findRepeatingXORKeySize` panics, returning no key length, exactly
when the capacity of the ciphertext (its length plus its spare capacity) is below 320
bytes, and it returns a key length between 2 and 40 exactly when the capacity is 320
bytes or more, as it is for every ciphertext of 320 bytes or more. -/
theorem findRepeatingXORKeySize_none_iff (inp spare : List Byte) :
    (findRepeatingXORKeySize inp spare = none ↔ inp.length + spare.length < 320) ∧
    ((∃ k : Nat, findRepeatingXORKeySize inp spare = some k ∧ 2 ≤ k ∧ k ≤ 40)
      ↔ 320 ≤ inp.length + spare.length) := by
  rcases Nat.lt_or_ge (inp.length + spare.length) 320 with h | h
  · have hn := findRepeatingXORKeySize_none_of_cap inp spare h
    refine ⟨⟨fun _ => h, fun _ => hn⟩, ⟨?_, fun h2 => absurd h (by omega)⟩⟩
    rintro ⟨k, hk, _⟩
    rw [hn] at hk
    exact Option.noConfusion hk
  · obtain ⟨k, hk, h2, h40⟩ := findRepeatingXORKeySize_some_of_cap inp spare h
    refine ⟨⟨?_, fun h2 => absurd h (by omega)⟩, ⟨fun _ => h, fun _ => ⟨k, hk, h2, h40⟩⟩⟩
    intro hn
    rw [hn] at hk
    exact Option.noConfusion hk

/-- The normalized distance of the candidate 2 on 321 zero bytes is zero. -/
theorem normDistance_zeros_two : normDistance (List.replicate 321 0) 2 = 0 := by
  unfold normDistance
  have e : (List.replicate 321 (0 : Byte)).take (4 * 2)
      = ((List.replicate 321 (0 : Byte)).drop (4 * 2)).take (4 * 2) := by
    simp only [List.take_replicate, List.drop_replicate]
    rfl
  rw [← e, (bitDistance_eq_zero_iff _ _ rfl).mpr rfl]
  simp

/-- C4 (counterexample): a ciphertext of 319 zero bytes in a backing array of 321 zero
bytes is shorter than 320 bytes, and `findRepeatingXORKeySize` returns the key length
2 on it instead of failing. -/
theorem findRepeatingXORKeySize_short_with_capacity :
    (List.replicate 319 (0 : Byte)).length < 320 ∧
      findRepeatingXORKeySize (List.replicate 319 0) [0, 0] = some 2 := by
  refine ⟨by rw [List.length_replicate]; omega, ?_⟩
  have e : List.replicate 319 (0 : Byte) ++ [0, 0] = List.replicate 321 0 :=
    (List.replicate_add 319 2 (0 : Byte)).symm
  rw [findRepeatingXORKeySize_append, e]
  obtain ⟨st, hfold, h2, _, _, _, hlt⟩ := keySizeLoop_inv (List.replicate 321 0) []
    (by rw [List.length_replicate]; omega) 39 (by omega) (Nat.le_refl 39)
  unfold findRepeatingXORKeySize
  rw [hfold]
  rcases Nat.lt_or_ge 2 st.res with h | h
  · have := hlt 2 (Nat.le_refl 2) h
    rw [normDistance_zeros_two] at this
    exact absurd this (not_lt.mpr (normDistance_bounds _ (by omega)).1)
  · have : st.res = 2 := by omega
    simp only [this]

end Cryptopals
